import Mathlib

/-!
# Verification of the gonfig configuration loader

A shallow embedding of the gonfig library (stevenroose/gonfig).  Go values of
the kinds the library coerces into are embedded as `GoValue`, field types as
`GoType`, and the coercion functions (`parseInt`, `parseUint`, `parseSimpleValue`,
`parseSlice`, `readAsCSV`, `setValueByString`, `setValue`), the structure
inspection (`createOptionsFromStruct` / `inspectConfigStructure`) and the four
source passes of `Load` (`setDefaults`, `parseMapOpts`, `parseEnv`, `parseFlags`)
are translated into executable Lean functions.

Modelling notes, applying to the whole file:

* Machine integers are `Int`/`Nat` with explicit range checks and wrap-arounds
  (`% 2^w`) where Go's semantics demand them.
* Go's in-place mutation of the caller's struct through `reflect.Value` handles
  is modelled by explicit state passing: a configuration state is a function
  from option paths (`List String`, the `fullIDParts` of an option) to values,
  and every pass maps a state to a new state (plus an optional error).
* The embedded type universe covers the kinds the verified claims quantify
  over: strings, booleans, all signed/unsigned integer widths, `[]byte`, and
  slices of these simple kinds.  Branches of the source that only concern
  types outside this universe (`encoding.TextUnmarshaler` implementors,
  floats, `map[string]interface{}` fields, interface fields) are not part of
  the model; the dispatch structure of the source is preserved for the kinds
  that are included.
* `errors` are modelled structurally: each error-constructing call of the
  source gets its own constructor carrying the data the source formats into
  the message.  Go panics reachable from the modelled code get dedicated
  outcomes so that "error" and "panic" can be told apart in theorems.
-/

namespace Gonfig

/-! ## The embedded Go type and value universe -/

/-- Bit widths of Go integer kinds: `int8/16/32/64` and the platform word
(`int`/`uint`, whose `strconv` bit size argument is `0`). -/
inductive IntWidth where
  | w8 | w16 | w32 | w64 | word
deriving DecidableEq, Repr

/-- The `bitSize` argument `parseInt`/`parseUint` pass to `strconv.ParseInt` /
`strconv.ParseUint`: `0` for the platform word kinds `int`/`uint`, else the
declared width (part_001 lines 24-71). -/
def IntWidth.strconvBitSize : IntWidth → Nat
  | .w8 => 8
  | .w16 => 16
  | .w32 => 32
  | .w64 => 64
  | .word => 0

/-- `strconv.IntSize` of the modelled platform: the model fixes a 64-bit
platform, the common case for Go deployments. -/
def intSize : Nat := 64

/-- The effective number of bits `strconv` checks ranges against: a `bitSize`
of `0` stands for the platform word. -/
def effBits (bitSize : Nat) : Nat := if bitSize = 0 then intSize else bitSize

/-- Scalar ("simple") Go kinds of the model: the kinds `parseSimpleValue`
handles that the claims quantify over. -/
inductive SimpleType where
  | str
  | bool
  | int (w : IntWidth)
  | uint (w : IntWidth)
deriving DecidableEq, Repr

/-- Field types of the model: simple kinds, `[]byte` (which gonfig treats as a
scalar-like base64 leaf, never as a slice), and slices of simple kinds. -/
inductive GoType where
  | simple (t : SimpleType)
  | bytes
  | slice (elem : SimpleType)
deriving DecidableEq, Repr

/-- Embedded Go values.  Go distinguishes a `nil` slice from an empty non-nil
slice (`reflect.Value.IsNil`), which `isZero` relies on, so slice and byte
slice payloads are `Option`s: `none` is the nil slice. -/
inductive GoValue where
  | vStr (s : String)
  | vBool (b : Bool)
  | vInt (w : IntWidth) (n : Int)
  | vUint (w : IntWidth) (n : Nat)
  | vBytes (bs : Option (List Nat))
  | vSlice (elem : SimpleType) (xs : Option (List GoValue))

/-- The zero `reflect.Value` of each type (`reflect.Zero`): empty string,
`false`, `0`, nil slices. -/
def zeroValue : GoType → GoValue
  | .simple .str => .vStr ""
  | .simple .bool => .vBool false
  | .simple (.int w) => .vInt w 0
  | .simple (.uint w) => .vUint w 0
  | .bytes => .vBytes none
  | .slice e => .vSlice e none

/-- `isZero` (src/values.go lines 104-125): slice kinds are zero iff nil;
other kinds compare against the zero value of the type.  (The array/struct
cases of the source recurse over elements; array and struct leaves are outside
the modelled universe.) -/
def isZero : GoValue → Bool
  | .vStr s => s = ""
  | .vBool b => b = false
  | .vInt _ n => n = 0
  | .vUint _ n => n = 0
  | .vBytes o => o.isNone
  | .vSlice _ o => o.isNone

/-! ## Errors

Each constructor corresponds to one error-constructing site of the source and
carries the data the source formats into the message. -/

inductive CoerceErr where
  /-- `parseError(s, t, err)` (part_007): names the offending text and the
  target type. -/
  | parseError (text : String) (target : GoType)
  /-- `fmt.Errorf("error parsing comma separated value '%v': %v", s, err)`
  in `parseSlice` (part_001 line 158). -/
  | csvError (text : String)
  /-- `convertibleError(v, t)` (part_007): names the value's type and the
  target type. -/
  | convertibleError (target : GoType)
  /-- `parseMapOpts`' error for a composite option whose map value is not a
  nested map (src/file.go lines 33-36). -/
  | compositeValue (path : List String)
  /-- `fmt.Errorf("failed to set option '%v': %v", ...)` wrappers carrying the
  option's full ID. -/
  | wrapped (path : List String) (e : CoerceErr)
  /-- the `panic("not simple value")` of `parseSimpleValue` (part_001
  line 148), kept distinct from returned errors. -/
  | panicNotSimple
  /-- `parseFlags`' "flag is set with both short and full form" error
  (src/flags.go lines 253-255). -/
  | bothFlagForms (path : List String)
  /-- `parseFlags`' "unknown flag" error (src/flags.go lines 269-271). -/
  | unknownFlag
deriving DecidableEq, Repr

/-! ## strconv: `ParseInt`, `ParseUint`, `ParseBool` (base 10, explicit base)

`strconv.ParseInt(s, 10, bitSize)`: an optional single `+`/`-` sign followed by
one or more decimal digits (no underscores since the base is given explicitly),
range-checked against the effective bit width. -/

/-- Interpret a character list as a nonempty run of decimal digits. -/
def decDigits? : List Char → Option Nat
  | [] => none
  | cs => go cs 0
where
  go : List Char → Nat → Option Nat
    | [], acc => some acc
    | c :: cs, acc =>
      if c.isDigit then go cs (acc * 10 + (c.toNat - '0'.toNat)) else none

/-- `strconv.ParseUint(s, 10, bitSize)`: no sign permitted, digits only, value
at most `2^bits - 1`.  `none` models any returned error (`ErrSyntax` or
`ErrRange`) — gonfig only inspects err-or-nil. -/
def goParseUint (s : String) (bitSize : Nat) : Option Nat :=
  match decDigits? s.data with
  | none => none
  | some n => if n ≤ 2 ^ effBits bitSize - 1 then some n else none

/-- The integer a string denotes in base-10 syntax: an optional single
`+`/`-` sign followed by one or more decimal digits (`strconv`'s accepted
syntax for an explicit base 10), before any range check. -/
def decInt? (s : String) : Option Int :=
  let (neg, rest) :=
    match s.data with
    | '-' :: cs => (true, cs)
    | '+' :: cs => (false, cs)
    | cs => (false, cs)
  match decDigits? rest with
  | none => none
  | some n => some (if neg then -(n : Int) else (n : Int))

/-- `strconv.ParseInt(s, 10, bitSize)`: optional sign, then digits, with the
signed range check `-2^(bits-1) ≤ v ≤ 2^(bits-1) - 1`. -/
def goParseInt (s : String) (bitSize : Nat) : Option Int :=
  match decInt? s with
  | none => none
  | some v =>
    let b := effBits bitSize
    if -(2 ^ (b - 1) : Int) ≤ v ∧ v ≤ 2 ^ (b - 1) - 1 then some v else none

/-- `strconv.ParseBool`: exactly the canonical token set. -/
def goParseBool (s : String) : Option Bool :=
  if s = "1" ∨ s = "t" ∨ s = "T" ∨ s = "TRUE" ∨ s = "true" ∨ s = "True" then some true
  else if s = "0" ∨ s = "f" ∨ s = "F" ∨ s = "FALSE" ∨ s = "false" ∨ s = "False" then some false
  else none

/-! ## base64: `base64.StdEncoding.DecodeString`

Standard alphabet with mandatory `=` padding; carriage returns and newlines
are ignored; a padded quantum must end the input; the default (non-strict)
decoder ignores nonzero trailing bits. -/

/-- Index of a character in the standard base64 alphabet. -/
def b64Index (c : Char) : Option Nat :=
  if 'A' ≤ c ∧ c ≤ 'Z' then some (c.toNat - 'A'.toNat)
  else if 'a' ≤ c ∧ c ≤ 'z' then some (c.toNat - 'a'.toNat + 26)
  else if '0' ≤ c ∧ c ≤ '9' then some (c.toNat - '0'.toNat + 52)
  else if c = '+' then some 62
  else if c = '/' then some 63
  else none

/-- Decode a list of base64 characters quantum by quantum. -/
def b64Quanta : List Char → Option (List Nat)
  | [] => some []
  | c1 :: c2 :: c3 :: c4 :: rest =>
    match b64Index c1, b64Index c2 with
    | some i1, some i2 =>
      if c3 = '=' then
        -- one decoded byte; padding must end the input
        if c4 = '=' ∧ rest = [] then some [i1 * 4 + i2 / 16] else none
      else
        match b64Index c3 with
        | some i3 =>
          if c4 = '=' then
            -- two decoded bytes; padding must end the input
            if rest = [] then some [i1 * 4 + i2 / 16, (i2 % 16) * 16 + i3 / 4] else none
          else
            match b64Index c4 with
            | some i4 =>
              match b64Quanta rest with
              | some tail =>
                some ((i1 * 4 + i2 / 16) :: ((i2 % 16) * 16 + i3 / 4) ::
                  ((i3 % 4) * 64 + i4) :: tail)
              | none => none
            | none => none
        | none => none
    | _, _ => none
  | _ => none

/-- `base64.StdEncoding.DecodeString`. -/
def goBase64Decode (s : String) : Option (List Nat) :=
  b64Quanta (s.data.filter (fun c => c ≠ '\r' ∧ c ≠ '\n'))

/-! ## CSV: `encoding/csv` `Reader.Read` with default settings

`readAsCSV` (part_001 lines 287-294) reads one record with a default
`csv.Reader`: comma separator, `LazyQuotes = false`, `TrimLeadingSpace = false`.
A record ends at a newline or at the end of the input; blank lines before the
record are skipped (an input of blank lines only yields `io.EOF`).  A quoted
field is opened by `"`; inside it `""` is a literal quote; the closing `"`
must be followed by a comma, a newline, or the end of input.  A bare `"`
inside an unquoted field is an error. -/

inductive CsvErr where
  | bareQuote  -- ErrBareQuote: bare `"` in non-quoted field
  | quote      -- ErrQuote: extraneous or missing `"` in quoted field
  | eof        -- io.EOF: no record present
deriving DecidableEq, Repr

/-- Parse one quoted field (the opening quote already consumed).  Returns the
field and the rest of the record input, `none` when the record ended. -/
def csvQuotedField (acc : List Char) : List Char → Except CsvErr (String × Option (List Char))
  | [] => .error .quote
  | '"' :: rest =>
    match rest with
    | [] => .ok (⟨acc.reverse⟩, none)
    | '"' :: rest' => csvQuotedField ('"' :: acc) rest'
    | ',' :: rest' => .ok (⟨acc.reverse⟩, some rest')
    | '\n' :: _ => .ok (⟨acc.reverse⟩, none)
    | _ => .error .quote
  | c :: rest => csvQuotedField (c :: acc) rest

/-- Parse one unquoted field.  Returns the field and the rest of the record
input, `none` when the record ended. -/
def csvBareField (acc : List Char) : List Char → Except CsvErr (String × Option (List Char))
  | [] => .ok (⟨acc.reverse⟩, none)
  | ',' :: rest => .ok (⟨acc.reverse⟩, some rest)
  | '\n' :: _ => .ok (⟨acc.reverse⟩, none)
  | '"' :: _ => .error .bareQuote
  | c :: rest => csvBareField (c :: acc) rest

/-- Parse one field, dispatching on an opening quote. -/
def csvField : List Char → Except CsvErr (String × Option (List Char))
  | '"' :: rest => csvQuotedField [] rest
  | cs => csvBareField [] cs

/-- Parse the fields of one record.  Each successful `csvField` with a
`some rest` continuation has consumed at least the separating comma, so the
input shrinks at every step and `length + 1` fuel is always enough; the fuel
only bounds the recursion. -/
def csvFields (fuel : Nat) (cs : List Char) : Except CsvErr (List String) :=
  match fuel with
  | 0 => .error .quote
  | fuel + 1 =>
    match csvField cs with
    | .error e => .error e
    | .ok (f, none) => .ok [f]
    | .ok (f, some rest) =>
      match csvFields fuel rest with
      | .error e => .error e
      | .ok fs => .ok (f :: fs)

/-- Skip the blank lines a `csv.Reader` skips before the first record. -/
def csvSkipBlank : List Char → List Char
  | '\n' :: rest => csvSkipBlank rest
  | cs => cs

/-- One `csv.Reader.Read` over the whole input string. -/
def csvReadRecord (s : String) : Except CsvErr (List String) :=
  match csvSkipBlank s.data with
  | [] => .error .eof
  | cs => csvFields (cs.length + 1) cs

/-- `readAsCSV` (part_001 lines 287-294): the empty string short-circuits to an
empty (non-nil) list, otherwise one CSV record is read. -/
def readAsCSV (val : String) : Except CsvErr (List String) :=
  if val = "" then .ok [] else csvReadRecord val

/-! ## The value coercion layer

`parseInt` / `parseUint` (part_001 lines 24-71): dispatch the declared kind to
the `strconv` bit size, parse, store.  `parseSimpleValue` (part_001 lines
94-152): `[]byte` decodes as standard base64; otherwise dispatch on the kind.
`parseSlice` (part_001 lines 155-170): split as CSV, coerce each element
through `parseSimpleValue`, abort on the first failing element. -/

/-- `isSlice` (part_001 lines 19-21): a slice type other than `[]byte`. -/
def isSliceTy : GoType → Bool
  | .slice _ => true
  | _ => false

/-- `parseInt` (part_001 lines 24-46): pick the bit size from the declared
kind, parse base 10. -/
def parseInt (w : IntWidth) (s : String) : Except CoerceErr GoValue :=
  match goParseInt s w.strconvBitSize with
  | some n => .ok (.vInt w n)
  | none => .error (.parseError s (.simple (.int w)))

/-- `parseUint` (part_001 lines 49-71). -/
def parseUint (w : IntWidth) (s : String) : Except CoerceErr GoValue :=
  match goParseUint s w.strconvBitSize with
  | some n => .ok (.vUint w n)
  | none => .error (.parseError s (.simple (.uint w)))

/-- `parseSimpleValue` (part_001 lines 94-152).  The `TextUnmarshaler`,
interface and float branches concern types outside the modelled universe; the
`[]byte` branch and the string/bool/int/uint kind dispatch are translated
directly.  A slice type reaching this function hits the source's
`panic("not simple value")`, modelled as the distinguished `panicNotSimple`
outcome. -/
def parseSimpleValue (t : GoType) (s : String) : Except CoerceErr GoValue :=
  match t with
  | .bytes =>
    match goBase64Decode s with
    | some bs => .ok (.vBytes (some bs))
    | none => .error (.parseError s .bytes)
  | .simple .str => .ok (.vStr s)
  | .simple .bool =>
    match goParseBool s with
    | some b => .ok (.vBool b)
    | none => .error (.parseError s (.simple .bool))
  | .simple (.int w) => parseInt w s
  | .simple (.uint w) => parseUint w s
  | .slice _ => .error .panicNotSimple

/-- The element loop of `parseSlice` (part_001 lines 162-166): coerce each
CSV element through `parseSimpleValue` in order, aborting on the first
failure. -/
def parseElems (elem : SimpleType) : List String → Except CoerceErr (List GoValue)
  | [] => .ok []
  | x :: xs =>
    match parseSimpleValue (.simple elem) x with
    | .error e => .error e
    | .ok v =>
      match parseElems elem xs with
      | .error e => .error e
      | .ok vs => .ok (v :: vs)

/-- `parseSlice` (part_001 lines 155-170): `readAsCSV`, then each element
through `parseSimpleValue` into a freshly made slice; the first element
failure aborts the whole assignment.  The produced slice is non-nil
(`reflect.MakeSlice`), even when there are zero elements. -/
def parseSlice (elem : SimpleType) (s : String) : Except CoerceErr GoValue :=
  match readAsCSV s with
  | .error _ => .error (.csvError s)
  | .ok vals =>
    match parseElems elem vals with
    | .error e => .error e
    | .ok xs => .ok (.vSlice elem (some xs))

/-- `setValueByString` (src/values.go lines 14-26): slice options (the
option's `isSlice` flag, set for slice kinds other than `[]byte`, part_008
lines 112-114) go through `parseSlice`, everything else through
`parseSimpleValue`; either failure is wrapped with the option's full ID. -/
def setValueByString (path : List String) (t : GoType) (s : String) :
    Except CoerceErr GoValue :=
  match t with
  | .slice elem =>
    match parseSlice elem s with
    | .error e => .error (.wrapped path e)
    | .ok v => .ok v
  | _ =>
    match parseSimpleValue t s with
    | .error e => .error (.wrapped path e)
    | .ok v => .ok v

/-! ## Dynamic (file-decoded) values and `setValue`

A file decoder produces `map[string]interface{}` trees.  `DynVal` embeds the
dynamic values relevant to the claims: strings, booleans, integers (decoded as
Go `int64`), nested maps and lists.  `setValue` (src/values.go lines 34-55)
assigns them to an option: direct assignment for an identical type, conversion
for a convertible type unless the target is `[]byte`, the string fallback via
`setValueByString`, elementwise slice conversion, else an error. -/

inductive DynVal where
  | dStr (s : String)
  | dBool (b : Bool)
  | dInt (n : Int)
  | dMap (entries : List (String × DynVal))
  | dList (xs : List DynVal)

/-- The runtime Go type of a dynamic value, for the assignability and
convertibility dispatch. -/
inductive DynTy where
  | dtStr | dtBool | dtInt | dtMap | dtList
deriving DecidableEq, Repr

def DynVal.ty : DynVal → DynTy
  | .dStr _ => .dtStr
  | .dBool _ => .dtBool
  | .dInt _ => .dtInt
  | .dMap _ => .dtMap
  | .dList _ => .dtList

/-- Go assignability between the dynamic value's runtime type and the target
field type, restricted to the modelled universe: only identical types are
assignable here (`string` to `string`, `bool` to `bool`, `int64` to `int64`;
a decoded integer is an `int64`). -/
def assignableTo (d : DynTy) (t : GoType) : Bool :=
  match d, t with
  | .dtStr, .simple .str => true
  | .dtBool, .simple .bool => true
  | .dtInt, .simple (.int .w64) => true
  | _, _ => false

/-- Go convertibility between the dynamic value's runtime type and the target
type, for the universe: a string converts to `string` and to `[]byte`; a bool
only to `bool`; an `int64` to every integer kind and (as a rune) to `string`.
A `[]interface{}` does not convert to any concrete slice type, and a map
converts to nothing here. -/
def convertibleTo (d : DynTy) (t : GoType) : Bool :=
  match d, t with
  | .dtStr, .simple .str => true
  | .dtStr, .bytes => true
  | .dtBool, .simple .bool => true
  | .dtInt, .simple (.int _) => true
  | .dtInt, .simple (.uint _) => true
  | .dtInt, .simple .str => true
  | _, _ => false

/-- The number of value bits of an integer kind on the modelled platform. -/
def IntWidth.bits : IntWidth → Nat
  | .w8 => 8
  | .w16 => 16
  | .w32 => 32
  | .w64 => 64
  | .word => intSize

/-- Two's-complement wrap of an integer into a signed width, Go's conversion
semantics between integer kinds. -/
def wrapSigned (b : Nat) (n : Int) : Int :=
  (n + 2 ^ (b - 1)) % 2 ^ b - 2 ^ (b - 1)

/-- Wrap of an integer into an unsigned width. -/
def wrapUnsigned (b : Nat) (n : Int) : Nat :=
  (n % 2 ^ b).toNat

/-- Go's `string(i)` conversion from an integer: the UTF-8 string of the code
point, `�` for values that are not valid code points. -/
def goIntToString (n : Int) : String :=
  if 0 ≤ n ∧ n < 0x110000 ∧ ¬ (0xd800 ≤ n ∧ n < 0xe000) then
    String.singleton (Char.ofNat n.toNat)
  else
    String.singleton (Char.ofNat 0xfffd)

/-- `v.Convert(t)` for the convertible pairs of the universe (identity on the
assignable pairs). -/
def convertValue (t : GoType) (d : DynVal) : GoValue :=
  match d, t with
  | .dStr s, .simple .str => .vStr s
  | .dStr s, .bytes => .vBytes (some (s.toUTF8.toList.map (·.toNat)))
  | .dBool b, .simple .bool => .vBool b
  | .dInt n, .simple (.int w) => .vInt w (wrapSigned w.bits n)
  | .dInt n, .simple (.uint w) => .vUint w (wrapUnsigned w.bits n)
  | .dInt n, .simple .str => .vStr (goIntToString n)
  | _, _ => zeroValue t

/-- `convertSlice` (part_001 lines 218-253) restricted to the universe: the
target element types here are simple kinds, so the map-into-struct branch is
out of reach; each element is unwrapped from its interface and converted if
convertible, else the whole conversion fails with `convertibleError`. -/
def convertSlice (elem : SimpleType) (xs : List DynVal) : Except CoerceErr GoValue :=
  match go xs with
  | .error e => .error e
  | .ok vs => .ok (.vSlice elem (some vs))
where
  go : List DynVal → Except CoerceErr (List GoValue)
    | [] => .ok []
    | d :: ds =>
      if convertibleTo d.ty (.simple elem) then
        match go ds with
        | .error e => .error e
        | .ok vs => .ok (convertValue (.simple elem) d :: vs)
      else .error (.convertibleError (.simple elem))

/-- `setValue` (src/values.go lines 34-55), the dynamic-value entry point:
(1) assign when the runtime type is assignable to the target; (2) convert when
convertible, unless the target is `[]byte` (byte slices must go through the
explicit base64 text path); (3) fall back to `setValueByString` for string
values; (4) elementwise slice conversion when both are slices; (5) otherwise a
`convertibleError`. -/
def setValue (path : List String) (t : GoType) (d : DynVal) : Except CoerceErr GoValue :=
  if assignableTo d.ty t then .ok (convertValue t d)
  else if convertibleTo d.ty t ∧ t ≠ .bytes then .ok (convertValue t d)
  else
    match d with
    | .dStr s => setValueByString path t s
    | _ =>
      if isSliceTy t ∧ d.ty = .dtList then
        match t, d with
        | .slice elem, .dList xs => convertSlice elem xs
        | _, _ => .error (.convertibleError t)
      else .error (.convertibleError t)

/-! ## The config struct and the option tree

A config struct is embedded as its list of exported fields; each field carries
the metadata gonfig extracts in `optionFromField` (part_009 lines 69-92): the
resolved identifier, the `short` tag (empty string when absent), the `default`
tag (`Option`, since `Tag.Lookup` distinguishes absence from the empty
string), and for leaves the field type.  Identifier derivation from the Go
field name is out of the model: `id` is the already-resolved identifier. -/

inductive FieldSpec where
  | leaf (id short : String) (defaultTag : Option String) (ty : GoType)
  | parent (id short : String) (defaultTag : Option String) (subs : List FieldSpec)

def FieldSpec.id : FieldSpec → String
  | .leaf i _ _ _ => i
  | .parent i _ _ _ => i

/-- One entry of the flattened option list: the option's full ID parts, its
shorthand, default tag, and type (`none` for a composite parent). -/
structure FlatOpt where
  path : List String
  short : String
  defaultTag : Option String
  ty : Option GoType
deriving DecidableEq, Repr

def FlatOpt.isParent (o : FlatOpt) : Bool := o.ty.isNone

mutual
/-- The `allOpts` contribution of one field in `createOptionsFromStruct`
(part_009 line 155): for each field, all its sub-options recursively followed
by the option itself (`append(allSubOpts, opt)`). -/
def flattenOne (pre : List String) : FieldSpec → List FlatOpt
  | .leaf id short d t => [⟨pre ++ [id], short, d, some t⟩]
  | .parent id short d subs =>
    flattenList (pre ++ [id]) subs ++ [⟨pre ++ [id], short, d, none⟩]

/-- `allOpts` of a field list, in field declaration order. -/
def flattenList (pre : List String) : List FieldSpec → List FlatOpt
  | [] => []
  | f :: fs => flattenOne pre f ++ flattenList pre fs
end

/-- The top-level option list (`opts`) as flat entries. -/
def topOpts (fields : List FieldSpec) : List FlatOpt :=
  fields.map fun f =>
    match f with
    | .leaf id short d t => ⟨[id], short, d, some t⟩
    | .parent id short d _ => ⟨[id], short, d, none⟩

/-- Whether a list of identifiers contains a duplicate (the pairwise scan at
the end of `createOptionsFromStruct`, part_009 lines 158-168). -/
def hasDupIds : List String → Bool
  | [] => false
  | x :: xs => xs.contains x || hasDupIds xs

mutual
/-- Whether `createOptionsFromStruct` succeeds on one field: children must
recursively succeed, and each level's sibling identifiers must be distinct.
(In the modelled universe `isSupportedType` always holds, so duplicate
identifiers are the only structural failure of this stage.) -/
def fieldOk : FieldSpec → Bool
  | .leaf _ _ _ _ => true
  | .parent _ _ _ subs => fieldsOk subs && !hasDupIds (subs.map FieldSpec.id)

def fieldsOk : List FieldSpec → Bool
  | [] => true
  | f :: fs => fieldOk f && fieldsOk fs
end

/-- `createOptionsFromStruct` succeeds on the whole struct. -/
def createOk (fields : List FieldSpec) : Bool :=
  fieldsOk fields && !hasDupIds (fields.map FieldSpec.id)

/-- Whether the duplicate-shorthand scan of `inspectConfigStructure` (part_009
lines 194-203) fires at flattened index `i`: `allOpts[i].short` is nonempty
and equals some `allOpts[j].short` with `j ≠ i`. -/
def hasDupShortAt (allOpts : List FlatOpt) (i : Nat) : Bool :=
  match allOpts.get? i with
  | none => false
  | some oi =>
    oi.short ≠ "" &&
      (List.range allOpts.length).any fun j =>
        j ≠ i && (allOpts.get? j).map FlatOpt.short = some oi.short

/-- The first index at which the duplicate-shorthand scan fires (the scan runs
`i` in ascending order). -/
def firstDupShortIdx (allOpts : List FlatOpt) : Option Nat :=
  (List.range allOpts.length).find? (hasDupShortAt allOpts)

/-- Outcome of `inspectConfigStructure`: success, a returned error, or a Go
runtime panic. -/
inductive InspectResult where
  | ok
  /-- an error value is returned (and `Load` wraps it in a panic). -/
  | errored
  /-- the error branch of the duplicate-shorthand scan reads
  `opts[i].short` with `i` indexing `allOpts`; when `i ≥ len(opts)` this is a
  Go index-out-of-range runtime panic. -/
  | panicked
deriving DecidableEq, Repr

/-- `inspectConfigStructure` (part_009 lines 175-208): build the options
(failing on duplicate sibling identifiers), then scan the flattened list for
duplicate shorthands; on a duplicate at flattened index `i` the error branch
accesses `opts[i]` — the top-level list — which panics when `i` is not below
the number of top-level options. -/
def inspectConfigStructure (fields : List FieldSpec) : InspectResult :=
  if !createOk fields then .errored
  else
    match firstDupShortIdx (flattenList [] fields) with
    | none => .ok
    | some i => if i < (topOpts fields).length then .errored else .panicked

/-! ## Configuration state

The options hold live `reflect.Value` handles into the caller's struct; the
model makes the struct's contents explicit as a function from option paths to
values, and every write through a handle becomes a pointwise update. -/

def State := List String → GoValue

/-- An in-place write through an option's value handle. -/
def setVal (st : State) (p : List String) (v : GoValue) : State :=
  fun q => if q = p then v else st q

/-! ## The defaults pass

`setDefaults` (part_011 lines 121-159) iterates `s.opts` — the top-level
options: an option without a `default` tag is skipped; a composite parent with
one is an error (and `Load` panics); an option whose current value is not the
zero value is skipped; otherwise the default literal is parsed into a fresh
value of the option's type (`parseSlice` for slice options, `parseSimpleValue`
otherwise) and assigned. -/

/-- Additional error sites of `setDefaults`. -/
inductive DefaultsErr where
  /-- "default value specified for nested value" (part_011 lines 127-131). -/
  | defaultOnParent (path : List String)
  /-- "error parsing default value for ..." (part_011 lines 141-149). -/
  | defaultParse (path : List String) (e : CoerceErr)
deriving Repr

/-- Parse a default literal into a fresh zero value of the option's type:
`parseSlice` when `isSlice(opt.value)`, else `parseSimpleValue`. -/
def parseDefaultLiteral (t : GoType) (d : String) : Except CoerceErr GoValue :=
  match t with
  | .slice elem => parseSlice elem d
  | _ => parseSimpleValue t d

def setDefaultsPass : List FlatOpt → State → State × Option DefaultsErr
  | [], st => (st, none)
  | o :: os, st =>
    match o.defaultTag with
    | none => setDefaultsPass os st
    | some d =>
      if o.isParent then (st, some (.defaultOnParent o.path))
      else
        match o.ty with
        | none => (st, some (.defaultOnParent o.path))
        | some t =>
          if !isZero (st o.path) then setDefaultsPass os st
          else
            match parseDefaultLiteral t d with
            | .error e => (st, some (.defaultParse o.path e))
            | .ok v => setDefaultsPass os (setVal st o.path v)

/-! ## The file pass

`parseMapOpts` (src/file.go lines 17-46) applies a decoded string-keyed map to
a level of the option tree: the level's map keys are first normalised
(`formatMapKeys`), then each option looks its identifier up in the map;
a missing key is skipped, a composite option requires a nested map (else an
error) and recurses, and a leaf goes through `setValue`.  Keys matching no
option are never examined. -/

/-- Modelled from the spec: `ToKebab` is called by `formatMapKeys`
(src/file.go line 52) but its definition is not among the sources.  Per the
repository's variable-syntax documentation, configuration-file keys may be
written in kebab-case, snake_case or camelCase and are normalised to the
kebab-case identifier scheme: underscores become hyphens and upper-case
letters are lowered with a hyphen inserted at the word boundary. -/
def toKebab (s : String) : String :=
  ⟨go s.data true⟩
where
  go : List Char → Bool → List Char
    | [], _ => []
    | c :: cs, first =>
      if c = '_' then '-' :: go cs false
      else if c.isUpper then
        (if first then [c.toLower] else ['-', c.toLower]) ++ go cs false
      else c :: go cs false

/-- `formatMapKeys` (src/file.go lines 49-56). -/
def formatMapKeys (m : List (String × DynVal)) : List (String × DynVal) :=
  m.map fun e => (toKebab e.1, e.2)

/-- Map lookup.  A decoded Go map has unique keys; the model's association
lists take the first match. -/
def lookupDyn : List (String × DynVal) → String → Option DynVal
  | [], _ => none
  | e :: m, k => if e.1 = k then some e.2 else lookupDyn m k

/-- The per-level loop of `parseMapOpts`, with the keys already normalised. -/
def parseMapOptsGo (st : State) (fm : List (String × DynVal)) (pre : List String) :
    List FieldSpec → State × Option CoerceErr
  | [] => (st, none)
  | f :: fs =>
    match lookupDyn fm f.id with
    | none => parseMapOptsGo st fm pre fs
    | some val =>
      match f with
      | .parent id _ _ subs =>
        match val with
        | .dMap m' =>
          match parseMapOptsGo st (formatMapKeys m') (pre ++ [id]) subs with
          | (st', none) => parseMapOptsGo st' fm pre fs
          | (st', some e) => (st', some e)
        | _ => (st, some (.compositeValue (pre ++ [id])))
      | .leaf id _ _ t =>
        match setValue (pre ++ [id]) t val with
        | .ok v => parseMapOptsGo (setVal st (pre ++ [id]) v) fm pre fs
        | .error e => (st, some (.wrapped (pre ++ [id]) e))
termination_by fields => sizeOf fields

/-- `parseMapOpts` on a decoded file map and the top of the option tree. -/
def parseMapOpts (st : State) (m : List (String × DynVal)) (fields : List FieldSpec) :
    State × Option CoerceErr :=
  parseMapOptsGo st (formatMapKeys m) [] fields

/-! ## The environment pass

`parseEnv` (part_003 lines 445-483) iterates `s.allOpts`, skips parents,
computes each leaf's environment key with `makeEnvKey`, and applies a set
variable through the string-coercion path.  (The `opt.isMap` branch concerns
`map[string]interface{}` fields, outside the modelled universe.) -/

/-- `strings.ToUpper`, modelled for the ASCII identifiers gonfig builds its
keys from. -/
def goToUpper (s : String) : String :=
  ⟨s.data.map fun c => if 'a' ≤ c ∧ c ≤ 'z' then Char.ofNat (c.toNat - 32) else c⟩

/-- `strings.Replace(key, "-", "_", -1)`: with a single-character pattern this
is a character-wise substitution. -/
def goDashToUnderscore (s : String) : String :=
  ⟨s.data.map fun c => if c = '-' then '_' else c⟩

/-- `makeEnvKey` (part_003 lines 435-441): join the full ID parts with
underscores, fold hyphens to underscores, prepend the prefix, upper-case. -/
def makeEnvKey (pre : String) (parts : List String) : String :=
  goToUpper (pre ++ goDashToUnderscore (String.intercalate "_" parts))

def parseEnvPass (envPrefix : String) (env : String → Option String) :
    List FlatOpt → State → State × Option CoerceErr
  | [], st => (st, none)
  | o :: os, st =>
    match o.ty with
    | none => parseEnvPass envPrefix env os st
    | some t =>
      match env (makeEnvKey envPrefix o.path) with
      | none => parseEnvPass envPrefix env os st
      | some v =>
        match setValueByString o.path t v with
        | .ok gv => parseEnvPass envPrefix env os (setVal st o.path gv)
        | .error e => (st, some e)

/-! ## The flag pass

`parseFlags` (src/flags.go lines 230-274), after the command line has been
tokenised into a key→value map (the tokeniser `parseFlagsToMap` is outside
the core per the specification): iterate `s.allOpts`, skip parents, look the
option up under its full ID and, after removing that entry, under its
shorthand; both present is an error, exactly one is applied through the
string-coercion path; keys left over after the loop are unknown flags. -/

def lookupFlag : List (String × String) → String → Option String
  | [], _ => none
  | e :: fm, k => if e.1 = k then some e.2 else lookupFlag fm k

/-- `delete(flagsMap, k)`. -/
def eraseFlag : List (String × String) → String → List (String × String)
  | [], _ => []
  | e :: fm, k => if e.1 = k then eraseFlag fm k else e :: eraseFlag fm k

/-- The option loop of `parseFlags`: look the option up under its full ID,
delete that entry if present, then look up (what is left) under its
shorthand, deleting likewise; both forms present is an error, one form is
applied through the string-coercion path. -/
def parseFlagsGo : List FlatOpt → List (String × String) → State →
    State × List (String × String) × Option CoerceErr
  | [], fm, st => (st, fm, none)
  | o :: os, fm, st =>
    match o.ty with
    | none => parseFlagsGo os fm st
    | some t =>
      match lookupFlag fm (String.intercalate "." o.path) with
      | none =>
        match lookupFlag fm o.short with
        | none => parseFlagsGo os fm st
        | some v =>
          match setValueByString o.path t v with
          | .ok gv => parseFlagsGo os (eraseFlag fm o.short) (setVal st o.path gv)
          | .error e => (st, eraseFlag fm o.short, some (.wrapped o.path e))
      | some v =>
        match lookupFlag (eraseFlag fm (String.intercalate "." o.path)) o.short with
        | none =>
          match setValueByString o.path t v with
          | .ok gv =>
            parseFlagsGo os (eraseFlag fm (String.intercalate "." o.path))
              (setVal st o.path gv)
          | .error e =>
            (st, eraseFlag fm (String.intercalate "." o.path),
              some (.wrapped o.path e))
        | some _ =>
          (st, eraseFlag (eraseFlag fm (String.intercalate "." o.path)) o.short,
            some (.bothFlagForms o.path))

def parseFlagsPass (opts : List FlatOpt) (fm : List (String × String)) (st : State) :
    State × Option CoerceErr :=
  match parseFlagsGo opts fm st with
  | (st', _, some e) => (st', some e)
  | (st', rest, none) => if rest.isEmpty then (st', none) else (st', some .unknownFlag)

/-! ## `Load`

`Load` (part_011 lines 175-230): inspect the structure (panicking on a
structural error), apply defaults (panicking on an error), then the config
file, the environment and the flags, in that order, stopping at the first
error.  The file source is given as the already-decoded map (`Option`: `none`
when file reading is disabled or no file is present — decoding and file
location resolution are external to the modelled core); the environment is a
partial map from keys to values; the flags are the tokenised key→value list. -/

inductive LoadResult where
  /-- `Load` panicked inside `inspectConfigStructure` (wrapping a returned
  error or propagating the index-out-of-range panic); no source has run. -/
  | inspectFailed (st : State)
  /-- `Load` panicked on a `setDefaults` error. -/
  | defaultsFailed (st : State)
  /-- a source pass returned an error. -/
  | failed (st : State)
  | ok (st : State)

def LoadResult.isOk : LoadResult → Bool
  | .ok _ => true
  | _ => false

def LoadResult.state : LoadResult → State
  | .inspectFailed st => st
  | .defaultsFailed st => st
  | .failed st => st
  | .ok st => st

/-- The file step of `Load`: nothing to apply when no config file was
decoded, else `parseMapOpts` on the decoded map. -/
def filePassStep : Option (List (String × DynVal)) → List FieldSpec → State →
    State × Option CoerceErr
  | none, _, st => (st, none)
  | some m, fields, st => parseMapOpts st m fields

def LoadModel (fields : List FieldSpec) (init : State)
    (file : Option (List (String × DynVal)))
    (envPrefix : String) (env : String → Option String)
    (flags : List (String × String)) : LoadResult :=
  match inspectConfigStructure fields with
  | .errored => .inspectFailed init
  | .panicked => .inspectFailed init
  | .ok =>
    match setDefaultsPass (topOpts fields) init with
    | (st1, some _) => .defaultsFailed st1
    | (st1, none) =>
      match filePassStep file fields st1 with
      | (st2, some _) => .failed st2
      | (st2, none) =>
        match parseEnvPass envPrefix env (flattenList [] fields) st2 with
        | (st3, some _) => .failed st3
        | (st3, none) =>
          match parseFlagsPass (flattenList [] fields) flags st3 with
          | (st4, some _) => .failed st4
          | (st4, none) => .ok st4

/-! ## Derived notions used to state the claims -/

/-- The flag-map keys a leaf option consumes: its dotted full ID and, when
nonempty, its shorthand.  A composite parent is skipped by `parseFlags` and
consumes nothing. -/
def leafKeys (o : FlatOpt) : List String :=
  if o.ty.isNone then []
  else
    String.intercalate "." o.path :: (if o.short = "" then [] else [o.short])

/-- Two options consume disjoint flag-map keys.  This is the sanity condition
on a config struct's flag naming: no option's shorthand doubles as another
option's (or its own) dotted full ID.  `inspectConfigStructure` keeps
shorthands distinct from each other but does not compare them against full
IDs, so the claims over the flag source assume it explicitly. -/
abbrev keysDisj (a b : FlatOpt) : Prop := ∀ k ∈ leafKeys a, k ∉ leafKeys b

/-- The value the flag source supplies for an option, mirroring the lookup
sequence of `parseFlags`: the full ID first, then (after that entry is
removed) the shorthand; both present at once is the error case and supplies
nothing. -/
def flagSupply (fm : List (String × String)) (o : FlatOpt) : Option String :=
  match lookupFlag fm (String.intercalate "." o.path) with
  | none => lookupFlag fm o.short
  | some v =>
    match lookupFlag (eraseFlag fm (String.intercalate "." o.path)) o.short with
    | none => some v
    | some _ => none

/-- The field of a level matching an identifier.  Sibling identifiers are
distinct in every structure accepted by `inspectConfigStructure`, so the first
match is the match. -/
def findField (fields : List FieldSpec) (id : String) : Option FieldSpec :=
  fields.find? fun f => f.id = id

/-- Resolve a full ID path to its option descriptor, walking the tree the way
every adapter addresses options. -/
def resolveOpt (pre : List String) (fields : List FieldSpec) : List String → Option FlatOpt
  | [] => none
  | id :: rest =>
    match findField fields id with
    | some (.leaf _ short d t) =>
      if rest = [] then some ⟨pre ++ [id], short, d, some t⟩ else none
    | some (.parent _ short d subs) =>
      if rest = [] then some ⟨pre ++ [id], short, d, none⟩
      else resolveOpt (pre ++ [id]) subs rest
    | none => none

/-- The dynamic value the decoded config file supplies for the option at a
relative path: at each level the (normalised) map is looked up at the level's
identifier; descending requires the matched value to be a nested map. -/
def fileSupplyAt (m : List (String × DynVal)) (fields : List FieldSpec) :
    List String → Option DynVal
  | [] => none
  | id :: rest =>
    match findField fields id with
    | some (.leaf _ _ _ _) =>
      if rest = [] then lookupDyn (formatMapKeys m) id else none
    | some (.parent _ _ _ subs) =>
      if rest = [] then none
      else
        match lookupDyn (formatMapKeys m) id with
        | some (.dMap m') => fileSupplyAt m' subs rest
        | _ => none
    | none => none

/-- The file source including the no-file case. -/
def fileSupply (file : Option (List (String × DynVal))) (fields : List FieldSpec)
    (p : List String) : Option DynVal :=
  match file with
  | none => none
  | some m => fileSupplyAt m fields p

/-! ## Basic state lemmas -/

theorem setVal_same (st : State) (p : List String) (v : GoValue) :
    setVal st p v p = v := by
  simp [setVal]

theorem setVal_other (st : State) (p q : List String) (v : GoValue) (h : q ≠ p) :
    setVal st p v q = st q := by
  simp [setVal, h]

/-! ## One-step unfolding lemmas for the passes -/

theorem setDefaultsPass_cons_no_default (o : FlatOpt) (os : List FlatOpt) (st : State)
    (hd : o.defaultTag = none) :
    setDefaultsPass (o :: os) st = setDefaultsPass os st := by
  rw [setDefaultsPass, hd]

theorem setDefaultsPass_cons_parent (o : FlatOpt) (os : List FlatOpt) (st : State)
    (d : String) (hd : o.defaultTag = some d) (hpar : o.isParent = true) :
    setDefaultsPass (o :: os) st = (st, some (.defaultOnParent o.path)) := by
  rw [setDefaultsPass, hd, hpar]; rfl

theorem setDefaultsPass_cons_nonzero (o : FlatOpt) (os : List FlatOpt) (st : State)
    (d : String) (t : GoType) (hd : o.defaultTag = some d) (hty : o.ty = some t)
    (hz : isZero (st o.path) = false) :
    setDefaultsPass (o :: os) st = setDefaultsPass os st := by
  have hpar : o.isParent = false := by simp [FlatOpt.isParent, hty]
  rw [setDefaultsPass, hd, hpar, hty, hz]; rfl

theorem setDefaultsPass_cons_zero (o : FlatOpt) (os : List FlatOpt) (st : State)
    (d : String) (t : GoType) (hd : o.defaultTag = some d) (hty : o.ty = some t)
    (hz : isZero (st o.path) = true) :
    setDefaultsPass (o :: os) st =
      match parseDefaultLiteral t d with
      | .error e => (st, some (.defaultParse o.path e))
      | .ok v => setDefaultsPass os (setVal st o.path v) := by
  have hpar : o.isParent = false := by simp [FlatOpt.isParent, hty]
  rw [setDefaultsPass, hd, hpar, hty, hz]; rfl

theorem parseEnvPass_cons_parent (pre : String) (env : String → Option String)
    (o : FlatOpt) (os : List FlatOpt) (st : State) (hty : o.ty = none) :
    parseEnvPass pre env (o :: os) st = parseEnvPass pre env os st := by
  rw [parseEnvPass, hty]

theorem parseEnvPass_cons_unset (pre : String) (env : String → Option String)
    (o : FlatOpt) (os : List FlatOpt) (st : State) (t : GoType)
    (hty : o.ty = some t) (hkey : env (makeEnvKey pre o.path) = none) :
    parseEnvPass pre env (o :: os) st = parseEnvPass pre env os st := by
  rw [parseEnvPass, hty, hkey]

theorem parseEnvPass_cons_set (pre : String) (env : String → Option String)
    (o : FlatOpt) (os : List FlatOpt) (st : State) (t : GoType) (v : String)
    (hty : o.ty = some t) (hkey : env (makeEnvKey pre o.path) = some v) :
    parseEnvPass pre env (o :: os) st =
      match setValueByString o.path t v with
      | .ok gv => parseEnvPass pre env os (setVal st o.path gv)
      | .error e => (st, some e) := by
  rw [parseEnvPass, hty, hkey]

/-! ## Effect of the defaults pass -/

/-- A field whose current value is not the zero value is never written by the
defaults pass: the only write happens under an `isZero` check, and the value
at a path stays untouched until its own option's turn. -/
theorem setDefaultsPass_preserves_nonzero (os : List FlatOpt) (st : State)
    (p : List String) (h : isZero (st p) = false) :
    (setDefaultsPass os st).1 p = st p := by
  induction os generalizing st with
  | nil => rfl
  | cons o os ih =>
    cases hd : o.defaultTag with
    | none => rw [setDefaultsPass_cons_no_default o os st hd]; exact ih st h
    | some d =>
      by_cases hpar : o.isParent = true
      · rw [setDefaultsPass_cons_parent o os st d hd hpar]
      · cases hty : o.ty with
        | none =>
          have : o.isParent = true := by simp [FlatOpt.isParent, hty]
          exact absurd this hpar
        | some t =>
          by_cases hz : isZero (st o.path) = true
          · have hne : p ≠ o.path := fun he => by rw [he, hz] at h; cases h
            rw [setDefaultsPass_cons_zero o os st d t hd hty hz]
            cases hp : parseDefaultLiteral t d with
            | error e => rfl
            | ok v =>
              have h' : isZero (setVal st o.path v p) = false := by
                rw [setVal_other st o.path p v hne]; exact h
              dsimp only
              rw [ih _ h', setVal_other st o.path p v hne]
          · rw [setDefaultsPass_cons_nonzero o os st d t hd hty
              (Bool.not_eq_true _ ▸ hz)]
            exact ih st h

/-- A path that belongs to none of the scanned options is untouched by the
defaults pass. -/
theorem setDefaultsPass_untouched (os : List FlatOpt) (st : State)
    (p : List String) (hp : p ∉ os.map FlatOpt.path) :
    (setDefaultsPass os st).1 p = st p := by
  induction os generalizing st with
  | nil => rfl
  | cons o os ih =>
    simp only [List.map_cons, List.mem_cons, not_or] at hp
    obtain ⟨hne, hmem⟩ := hp
    cases hd : o.defaultTag with
    | none => rw [setDefaultsPass_cons_no_default o os st hd]; exact ih st hmem
    | some d =>
      by_cases hpar : o.isParent = true
      · rw [setDefaultsPass_cons_parent o os st d hd hpar]
      · cases hty : o.ty with
        | none =>
          have : o.isParent = true := by simp [FlatOpt.isParent, hty]
          exact absurd this hpar
        | some t =>
          by_cases hz : isZero (st o.path) = true
          · rw [setDefaultsPass_cons_zero o os st d t hd hty hz]
            cases hp' : parseDefaultLiteral t d with
            | error e => rfl
            | ok v =>
              dsimp only
              rw [ih _ hmem, setVal_other st o.path p v hne]
          · rw [setDefaultsPass_cons_nonzero o os st d t hd hty
              (Bool.not_eq_true _ ▸ hz)]
            exact ih st hmem

/-- A zero-valued option with a declared default is set to the coerced
default literal by a successful defaults pass. -/
theorem setDefaultsPass_sets (os : List FlatOpt) (st : State) (o : FlatOpt)
    (d : String) (t : GoType)
    (hnodup : (os.map FlatOpt.path).Nodup) (hmem : o ∈ os)
    (hd : o.defaultTag = some d) (hty : o.ty = some t)
    (hz : isZero (st o.path) = true)
    (hok : (setDefaultsPass os st).2 = none) :
    ∃ v, parseDefaultLiteral t d = .ok v ∧ (setDefaultsPass os st).1 o.path = v := by
  induction os generalizing st with
  | nil => cases hmem
  | cons o' os ih =>
    simp only [List.map_cons, List.nodup_cons] at hnodup
    obtain ⟨hhead, hnodup'⟩ := hnodup
    rcases List.mem_cons.mp hmem with rfl | hmem'
    · cases hp : parseDefaultLiteral t d with
      | error e =>
        rw [setDefaultsPass_cons_zero o os st d t hd hty hz, hp] at hok
        dsimp only at hok
        cases hok
      | ok v =>
        rw [setDefaultsPass_cons_zero o os st d t hd hty hz, hp] at hok ⊢
        dsimp only at hok ⊢
        refine ⟨v, rfl, ?_⟩
        rw [setDefaultsPass_untouched os _ o.path hhead, setVal_same]
    · have hne : o'.path ≠ o.path := by
        intro he
        exact hhead (he ▸ List.mem_map_of_mem FlatOpt.path hmem')
      cases hd' : o'.defaultTag with
      | none =>
        rw [setDefaultsPass_cons_no_default o' os st hd'] at hok ⊢
        exact ih st hnodup' hmem' hz hok
      | some d' =>
        by_cases hpar : o'.isParent = true
        · rw [setDefaultsPass_cons_parent o' os st d' hd' hpar] at hok; cases hok
        · cases hty' : o'.ty with
          | none =>
            have : o'.isParent = true := by simp [FlatOpt.isParent, hty']
            exact absurd this hpar
          | some t' =>
            by_cases hz' : isZero (st o'.path) = true
            · cases hp' : parseDefaultLiteral t' d' with
              | error e =>
                rw [setDefaultsPass_cons_zero o' os st d' t' hd' hty' hz', hp'] at hok
                dsimp only at hok
                cases hok
              | ok v =>
                rw [setDefaultsPass_cons_zero o' os st d' t' hd' hty' hz', hp'] at hok ⊢
                dsimp only at hok ⊢
                have hz2 : isZero (setVal st o'.path v o.path) = true := by
                  rw [setVal_other st o'.path o.path v (Ne.symm hne)]; exact hz
                exact ih _ hnodup' hmem' hz2 hok
            · rw [setDefaultsPass_cons_nonzero o' os st d' t' hd' hty'
                (Bool.not_eq_true _ ▸ hz')] at hok ⊢
              exact ih st hnodup' hmem' hz hok

/-- An option without a declared default is untouched by the defaults pass. -/
theorem setDefaultsPass_skips_no_default (os : List FlatOpt) (st : State) (o : FlatOpt)
    (hnodup : (os.map FlatOpt.path).Nodup) (hmem : o ∈ os)
    (hd : o.defaultTag = none) :
    (setDefaultsPass os st).1 o.path = st o.path := by
  induction os generalizing st with
  | nil => cases hmem
  | cons o' os ih =>
    simp only [List.map_cons, List.nodup_cons] at hnodup
    obtain ⟨hhead, hnodup'⟩ := hnodup
    rcases List.mem_cons.mp hmem with rfl | hmem'
    · rw [setDefaultsPass_cons_no_default o os st hd]
      exact setDefaultsPass_untouched os st o.path hhead
    · have hne : o'.path ≠ o.path := by
        intro he
        exact hhead (he ▸ List.mem_map_of_mem FlatOpt.path hmem')
      cases hd' : o'.defaultTag with
      | none =>
        rw [setDefaultsPass_cons_no_default o' os st hd']
        exact ih st hnodup' hmem'
      | some d' =>
        by_cases hpar : o'.isParent = true
        · rw [setDefaultsPass_cons_parent o' os st d' hd' hpar]
        · cases hty' : o'.ty with
          | none =>
            have : o'.isParent = true := by simp [FlatOpt.isParent, hty']
            exact absurd this hpar
          | some t' =>
            by_cases hz' : isZero (st o'.path) = true
            · rw [setDefaultsPass_cons_zero o' os st d' t' hd' hty' hz']
              cases hp' : parseDefaultLiteral t' d' with
              | error e => rfl
              | ok v =>
                dsimp only
                rw [ih _ hnodup' hmem', setVal_other st o'.path o.path v (Ne.symm hne)]
            · rw [setDefaultsPass_cons_nonzero o' os st d' t' hd' hty'
                (Bool.not_eq_true _ ▸ hz')]
              exact ih st hnodup' hmem'

/-! ## Effect of the environment pass -/

/-- A path that belongs to none of the scanned options is untouched by the
environment pass. -/
theorem parseEnvPass_untouched (pre : String) (env : String → Option String)
    (os : List FlatOpt) (st : State) (p : List String)
    (hp : p ∉ os.map FlatOpt.path) :
    (parseEnvPass pre env os st).1 p = st p := by
  induction os generalizing st with
  | nil => rfl
  | cons o os ih =>
    simp only [List.map_cons, List.mem_cons, not_or] at hp
    obtain ⟨hne, hmem⟩ := hp
    cases hty : o.ty with
    | none => rw [parseEnvPass_cons_parent pre env o os st hty]; exact ih st hmem
    | some t =>
      cases hkey : env (makeEnvKey pre o.path) with
      | none => rw [parseEnvPass_cons_unset pre env o os st t hty hkey]; exact ih st hmem
      | some v =>
        rw [parseEnvPass_cons_set pre env o os st t v hty hkey]
        cases hs : setValueByString o.path t v with
        | error e => rfl
        | ok gv =>
          dsimp only
          rw [ih _ hmem, setVal_other st o.path p gv hne]

/-- An option whose environment key is unset is untouched by the environment
pass. -/
theorem parseEnvPass_unset (pre : String) (env : String → Option String)
    (os : List FlatOpt) (st : State) (o : FlatOpt)
    (hnodup : (os.map FlatOpt.path).Nodup) (hmem : o ∈ os)
    (hkey : env (makeEnvKey pre o.path) = none) :
    (parseEnvPass pre env os st).1 o.path = st o.path := by
  induction os generalizing st with
  | nil => cases hmem
  | cons o' os ih =>
    simp only [List.map_cons, List.nodup_cons] at hnodup
    obtain ⟨hhead, hnodup'⟩ := hnodup
    rcases List.mem_cons.mp hmem with rfl | hmem'
    · cases hty : o.ty with
      | none =>
        rw [parseEnvPass_cons_parent pre env o os st hty]
        exact parseEnvPass_untouched pre env os st o.path hhead
      | some t =>
        rw [parseEnvPass_cons_unset pre env o os st t hty hkey]
        exact parseEnvPass_untouched pre env os st o.path hhead
    · have hne : o'.path ≠ o.path := by
        intro he
        exact hhead (he ▸ List.mem_map_of_mem FlatOpt.path hmem')
      cases hty : o'.ty with
      | none => rw [parseEnvPass_cons_parent pre env o' os st hty]; exact ih st hnodup' hmem'
      | some t =>
        cases hkey' : env (makeEnvKey pre o'.path) with
        | none =>
          rw [parseEnvPass_cons_unset pre env o' os st t hty hkey']
          exact ih st hnodup' hmem'
        | some v =>
          rw [parseEnvPass_cons_set pre env o' os st t v hty hkey']
          cases hs : setValueByString o'.path t v with
          | error e => rfl
          | ok gv =>
            dsimp only
            rw [ih _ hnodup' hmem', setVal_other st o'.path o.path gv (Ne.symm hne)]

/-- A leaf option whose environment key is set is written with the coerced
value by a successful environment pass. -/
theorem parseEnvPass_sets (pre : String) (env : String → Option String)
    (os : List FlatOpt) (st : State) (o : FlatOpt) (t : GoType) (v : String)
    (hnodup : (os.map FlatOpt.path).Nodup) (hmem : o ∈ os)
    (hty : o.ty = some t) (hkey : env (makeEnvKey pre o.path) = some v)
    (hok : (parseEnvPass pre env os st).2 = none) :
    ∃ gv, setValueByString o.path t v = .ok gv ∧
      (parseEnvPass pre env os st).1 o.path = gv := by
  induction os generalizing st with
  | nil => cases hmem
  | cons o' os ih =>
    simp only [List.map_cons, List.nodup_cons] at hnodup
    obtain ⟨hhead, hnodup'⟩ := hnodup
    rcases List.mem_cons.mp hmem with rfl | hmem'
    · cases hs : setValueByString o.path t v with
      | error e =>
        rw [parseEnvPass_cons_set pre env o os st t v hty hkey, hs] at hok
        dsimp only at hok
        cases hok
      | ok gv =>
        rw [parseEnvPass_cons_set pre env o os st t v hty hkey, hs] at hok ⊢
        dsimp only at hok ⊢
        refine ⟨gv, rfl, ?_⟩
        rw [parseEnvPass_untouched pre env os _ o.path hhead, setVal_same]
    · have hne : o'.path ≠ o.path := by
        intro he
        exact hhead (he ▸ List.mem_map_of_mem FlatOpt.path hmem')
      cases hty' : o'.ty with
      | none =>
        rw [parseEnvPass_cons_parent pre env o' os st hty'] at hok ⊢
        exact ih st hnodup' hmem' hok
      | some t' =>
        cases hkey' : env (makeEnvKey pre o'.path) with
        | none =>
          rw [parseEnvPass_cons_unset pre env o' os st t' hty' hkey'] at hok ⊢
          exact ih st hnodup' hmem' hok
        | some v' =>
          cases hs : setValueByString o'.path t' v' with
          | error e =>
            rw [parseEnvPass_cons_set pre env o' os st t' v' hty' hkey', hs] at hok
            dsimp only at hok
            cases hok
          | ok gv =>
            rw [parseEnvPass_cons_set pre env o' os st t' v' hty' hkey', hs] at hok ⊢
            dsimp only at hok ⊢
            exact ih _ hnodup' hmem' hok

/-! ## Flag-map bookkeeping lemmas -/

theorem mem_of_mem_eraseFlag (fm : List (String × String)) (k : String)
    (e : String × String) (h : e ∈ eraseFlag fm k) : e ∈ fm := by
  induction fm with
  | nil => cases h
  | cons e' fm ih =>
    rw [eraseFlag] at h
    by_cases he : e'.1 = k
    · rw [if_pos he] at h
      exact List.mem_cons_of_mem e' (ih h)
    · rw [if_neg he] at h
      rcases List.mem_cons.mp h with rfl | h'
      · exact List.mem_cons_self e fm
      · exact List.mem_cons_of_mem e' (ih h')

theorem lookupFlag_erase_self (fm : List (String × String)) (k : String) :
    lookupFlag (eraseFlag fm k) k = none := by
  induction fm with
  | nil => rfl
  | cons e fm ih =>
    rw [eraseFlag]
    by_cases he : e.1 = k
    · rw [if_pos he]; exact ih
    · rw [if_neg he, lookupFlag, if_neg he]; exact ih

theorem lookupFlag_erase_other (fm : List (String × String)) (k key : String)
    (h : key ≠ k) : lookupFlag (eraseFlag fm k) key = lookupFlag fm key := by
  induction fm with
  | nil => rfl
  | cons e fm ih =>
    rw [eraseFlag, lookupFlag]
    by_cases he : e.1 = k
    · rw [if_pos he, if_neg (by rw [he]; exact fun hk => h hk.symm)]
      exact ih
    · rw [if_neg he, lookupFlag]
      by_cases hk : e.1 = key
      · rw [if_pos hk, if_pos hk]
      · rw [if_neg hk, if_neg hk]; exact ih

theorem lookupFlag_no_empty (fm : List (String × String))
    (hfm : ∀ e ∈ fm, e.1 ≠ "") : lookupFlag fm "" = none := by
  induction fm with
  | nil => rfl
  | cons e fm ih =>
    rw [lookupFlag, if_neg (hfm e (List.mem_cons_self e fm))]
    exact ih fun e' he' => hfm e' (List.mem_cons_of_mem e he')

theorem eraseFlag_no_empty (fm : List (String × String)) (k : String)
    (hfm : ∀ e ∈ fm, e.1 ≠ "") : ∀ e ∈ eraseFlag fm k, e.1 ≠ "" :=
  fun e he => hfm e (mem_of_mem_eraseFlag fm k e he)

theorem eraseFlag_comm (fm : List (String × String)) (k k' : String) :
    eraseFlag (eraseFlag fm k) k' = eraseFlag (eraseFlag fm k') k := by
  induction fm with
  | nil => rfl
  | cons e fm ih =>
    by_cases hk : e.1 = k
    · by_cases hk' : e.1 = k'
      · have h1 : k = k' := hk.symm.trans hk'
        subst h1
        simp [eraseFlag, hk, ih]
      · have h2 : k ≠ k' := fun h => hk' (hk.trans h)
        simp [eraseFlag, hk, hk', h2, ih]
    · by_cases hk' : e.1 = k'
      · have h2 : k' ≠ k := fun h => hk (hk'.trans h)
        simp [eraseFlag, hk, hk', h2, ih]
      · simp [eraseFlag, hk, hk', ih]

/-- Erasing a key an option does not consume leaves its flag supply
unchanged. -/
theorem flagSupply_erase (fm : List (String × String)) (k : String) (o : FlatOpt)
    (t : GoType) (hty : o.ty = some t) (hk : k ∉ leafKeys o)
    (hfm : ∀ e ∈ fm, e.1 ≠ "") :
    flagSupply (eraseFlag fm k) o = flagSupply fm o := by
  have hkeys : leafKeys o =
      String.intercalate "." o.path :: (if o.short = "" then [] else [o.short]) := by
    rw [leafKeys, hty]
    rfl
  rw [hkeys] at hk
  simp only [List.mem_cons, not_or] at hk
  have hkfull : k ≠ String.intercalate "." o.path := hk.1
  have hkshort : o.short ≠ "" → o.short ≠ k := by
    intro hs he
    rcases hk with ⟨-, hk2⟩
    rw [if_neg hs] at hk2
    exact hk2 (by rw [← he]; exact List.mem_cons_self _ _)
  have hshort_eq : ∀ (l : List (String × String)), (∀ e ∈ l, e.1 ≠ "") →
      lookupFlag (eraseFlag l k) o.short = lookupFlag l o.short := by
    intro l hl
    by_cases hs : o.short = ""
    · rw [hs, lookupFlag_no_empty _ (eraseFlag_no_empty l k hl),
        lookupFlag_no_empty _ hl]
    · exact lookupFlag_erase_other l k o.short (hkshort hs)
  rw [flagSupply, flagSupply,
    lookupFlag_erase_other fm k _ (fun he => hkfull he.symm)]
  cases hfull : lookupFlag fm (String.intercalate "." o.path) with
  | none => exact hshort_eq fm hfm
  | some v =>
    rw [eraseFlag_comm]
    rw [hshort_eq (eraseFlag fm (String.intercalate "." o.path))
      (eraseFlag_no_empty fm _ hfm)]

/-! ## One-step unfolding lemmas for the flag pass -/

theorem parseFlagsGo_cons_parent (o : FlatOpt) (os : List FlatOpt)
    (fm : List (String × String)) (st : State) (hty : o.ty = none) :
    parseFlagsGo (o :: os) fm st = parseFlagsGo os fm st := by
  rw [parseFlagsGo, hty]

theorem parseFlagsGo_cons_skip (o : FlatOpt) (os : List FlatOpt)
    (fm : List (String × String)) (st : State) (t : GoType) (hty : o.ty = some t)
    (hfull : lookupFlag fm (String.intercalate "." o.path) = none)
    (hshort : lookupFlag fm o.short = none) :
    parseFlagsGo (o :: os) fm st = parseFlagsGo os fm st := by
  rw [parseFlagsGo, hty, hfull, hshort]

theorem parseFlagsGo_cons_short (o : FlatOpt) (os : List FlatOpt)
    (fm : List (String × String)) (st : State) (t : GoType) (v : String)
    (hty : o.ty = some t)
    (hfull : lookupFlag fm (String.intercalate "." o.path) = none)
    (hshort : lookupFlag fm o.short = some v) :
    parseFlagsGo (o :: os) fm st =
      match setValueByString o.path t v with
      | .ok gv => parseFlagsGo os (eraseFlag fm o.short) (setVal st o.path gv)
      | .error e => (st, eraseFlag fm o.short, some (.wrapped o.path e)) := by
  rw [parseFlagsGo, hty, hfull, hshort]

theorem parseFlagsGo_cons_full (o : FlatOpt) (os : List FlatOpt)
    (fm : List (String × String)) (st : State) (t : GoType) (v : String)
    (hty : o.ty = some t)
    (hfull : lookupFlag fm (String.intercalate "." o.path) = some v)
    (hshort : lookupFlag (eraseFlag fm (String.intercalate "." o.path)) o.short = none) :
    parseFlagsGo (o :: os) fm st =
      match setValueByString o.path t v with
      | .ok gv =>
        parseFlagsGo os (eraseFlag fm (String.intercalate "." o.path))
          (setVal st o.path gv)
      | .error e =>
        (st, eraseFlag fm (String.intercalate "." o.path),
          some (.wrapped o.path e)) := by
  rw [parseFlagsGo, hty, hfull, hshort]

theorem parseFlagsGo_cons_both (o : FlatOpt) (os : List FlatOpt)
    (fm : List (String × String)) (st : State) (t : GoType) (v w : String)
    (hty : o.ty = some t)
    (hfull : lookupFlag fm (String.intercalate "." o.path) = some v)
    (hshort : lookupFlag (eraseFlag fm (String.intercalate "." o.path)) o.short = some w) :
    parseFlagsGo (o :: os) fm st =
      (st, eraseFlag (eraseFlag fm (String.intercalate "." o.path)) o.short,
        some (.bothFlagForms o.path)) := by
  rw [parseFlagsGo, hty, hfull, hshort]

/-! ## Effect of the flag pass -/

/-- A path that belongs to none of the scanned options is untouched by the
flag pass. -/
theorem parseFlagsGo_untouched (os : List FlatOpt) (fm : List (String × String))
    (st : State) (p : List String) (hp : p ∉ os.map FlatOpt.path) :
    (parseFlagsGo os fm st).1 p = st p := by
  induction os generalizing fm st with
  | nil => rfl
  | cons o os ih =>
    simp only [List.map_cons, List.mem_cons, not_or] at hp
    obtain ⟨hne, hmem⟩ := hp
    cases hty : o.ty with
    | none => rw [parseFlagsGo_cons_parent o os fm st hty]; exact ih fm st hmem
    | some t =>
      cases hfull : lookupFlag fm (String.intercalate "." o.path) with
      | none =>
        cases hshort : lookupFlag fm o.short with
        | none =>
          rw [parseFlagsGo_cons_skip o os fm st t hty hfull hshort]
          exact ih fm st hmem
        | some v =>
          rw [parseFlagsGo_cons_short o os fm st t v hty hfull hshort]
          cases hs : setValueByString o.path t v with
          | error e => rfl
          | ok gv =>
            dsimp only
            rw [ih _ _ hmem, setVal_other st o.path p gv hne]
      | some v =>
        cases hshort : lookupFlag (eraseFlag fm (String.intercalate "." o.path)) o.short with
        | none =>
          rw [parseFlagsGo_cons_full o os fm st t v hty hfull hshort]
          cases hs : setValueByString o.path t v with
          | error e => rfl
          | ok gv =>
            dsimp only
            rw [ih _ _ hmem, setVal_other st o.path p gv hne]
        | some w =>
          rw [parseFlagsGo_cons_both o os fm st t v w hty hfull hshort]

/-- An option the flag map does not supply is untouched by a successful flag
pass. -/
theorem parseFlagsGo_unsupplied (os : List FlatOpt) (fm : List (String × String))
    (st : State) (o : FlatOpt) (t : GoType)
    (hnodup : (os.map FlatOpt.path).Nodup) (hpair : os.Pairwise keysDisj)
    (hfm : ∀ e ∈ fm, e.1 ≠ "") (hmem : o ∈ os) (hty : o.ty = some t)
    (hsup : flagSupply fm o = none)
    (hok : (parseFlagsGo os fm st).2.2 = none) :
    (parseFlagsGo os fm st).1 o.path = st o.path := by
  induction os generalizing fm st with
  | nil => cases hmem
  | cons o' os ih =>
    simp only [List.map_cons, List.nodup_cons] at hnodup
    obtain ⟨hhead, hnodup'⟩ := hnodup
    rw [List.pairwise_cons] at hpair
    obtain ⟨hdisj, hpair'⟩ := hpair
    rcases List.mem_cons.mp hmem with rfl | hmem'
    · rw [flagSupply] at hsup
      cases hfull : lookupFlag fm (String.intercalate "." o.path) with
      | none =>
        rw [hfull] at hsup
        dsimp only at hsup
        rw [parseFlagsGo_cons_skip o os fm st t hty hfull hsup]
        exact parseFlagsGo_untouched os fm st o.path hhead
      | some v =>
        rw [hfull] at hsup
        dsimp only at hsup
        cases hshort : lookupFlag (eraseFlag fm (String.intercalate "." o.path)) o.short with
        | none => rw [hshort] at hsup; dsimp only at hsup; cases hsup
        | some w =>
          rw [parseFlagsGo_cons_both o os fm st t v w hty hfull hshort] at hok
          cases hok
    · have hne : o'.path ≠ o.path := by
        intro he
        exact hhead (he ▸ List.mem_map_of_mem FlatOpt.path hmem')
      cases hty' : o'.ty with
      | none =>
        rw [parseFlagsGo_cons_parent o' os fm st hty'] at hok ⊢
        exact ih fm st hnodup' hpair' hfm hmem' hsup hok
      | some t' =>
        have hFullKey : String.intercalate "." o'.path ∈ leafKeys o' := by
          rw [leafKeys, hty']
          simp
        cases hfull : lookupFlag fm (String.intercalate "." o'.path) with
        | none =>
          cases hshort : lookupFlag fm o'.short with
          | none =>
            rw [parseFlagsGo_cons_skip o' os fm st t' hty' hfull hshort] at hok ⊢
            exact ih fm st hnodup' hpair' hfm hmem' hsup hok
          | some v =>
            have hShortKey : o'.short ∈ leafKeys o' := by
              have hs0 : o'.short ≠ "" := by
                intro h0
                rw [h0, lookupFlag_no_empty fm hfm] at hshort
                cases hshort
              rw [leafKeys, hty']
              simp [hs0]
            rw [parseFlagsGo_cons_short o' os fm st t' v hty' hfull hshort] at hok ⊢
            have hkdisj : o'.short ∉ leafKeys o := hdisj o hmem' _ hShortKey
            have hsup' : flagSupply (eraseFlag fm o'.short) o = none := by
              rw [flagSupply_erase fm o'.short o t hty hkdisj hfm]; exact hsup
            have hfm' := eraseFlag_no_empty fm o'.short hfm
            generalize hsv : setValueByString o'.path t' v = sv at hok ⊢
            cases sv with
            | error e => dsimp only at hok; cases hok
            | ok gv =>
              dsimp only at hok ⊢
              rw [ih _ _ hnodup' hpair' hfm' hmem' hsup' hok,
                setVal_other st o'.path o.path gv (Ne.symm hne)]
        | some v =>
          cases hshort : lookupFlag (eraseFlag fm (String.intercalate "." o'.path)) o'.short with
          | none =>
            rw [parseFlagsGo_cons_full o' os fm st t' v hty' hfull hshort] at hok ⊢
            have hkdisj : String.intercalate "." o'.path ∉ leafKeys o :=
              hdisj o hmem' _ hFullKey
            have hsup' : flagSupply (eraseFlag fm (String.intercalate "." o'.path)) o = none := by
              rw [flagSupply_erase fm _ o t hty hkdisj hfm]; exact hsup
            have hfm' := eraseFlag_no_empty fm (String.intercalate "." o'.path) hfm
            generalize hsv : setValueByString o'.path t' v = sv at hok ⊢
            cases sv with
            | error e => dsimp only at hok; cases hok
            | ok gv =>
              dsimp only at hok ⊢
              rw [ih _ _ hnodup' hpair' hfm' hmem' hsup' hok,
                setVal_other st o'.path o.path gv (Ne.symm hne)]
          | some w =>
            rw [parseFlagsGo_cons_both o' os fm st t' v w hty' hfull hshort] at hok
            cases hok

/-- An option the flag map supplies through exactly one form is written with
the coerced value by a successful flag pass. -/
theorem parseFlagsGo_supplied (os : List FlatOpt) (fm : List (String × String))
    (st : State) (o : FlatOpt) (t : GoType) (v : String)
    (hnodup : (os.map FlatOpt.path).Nodup) (hpair : os.Pairwise keysDisj)
    (hfm : ∀ e ∈ fm, e.1 ≠ "") (hmem : o ∈ os) (hty : o.ty = some t)
    (hsup : flagSupply fm o = some v)
    (hok : (parseFlagsGo os fm st).2.2 = none) :
    ∃ gv, setValueByString o.path t v = .ok gv ∧
      (parseFlagsGo os fm st).1 o.path = gv := by
  induction os generalizing fm st with
  | nil => cases hmem
  | cons o' os ih =>
    simp only [List.map_cons, List.nodup_cons] at hnodup
    obtain ⟨hhead, hnodup'⟩ := hnodup
    rw [List.pairwise_cons] at hpair
    obtain ⟨hdisj, hpair'⟩ := hpair
    rcases List.mem_cons.mp hmem with rfl | hmem'
    · rw [flagSupply] at hsup
      cases hfull : lookupFlag fm (String.intercalate "." o.path) with
      | none =>
        rw [hfull] at hsup
        dsimp only at hsup
        rw [parseFlagsGo_cons_short o os fm st t v hty hfull hsup] at hok ⊢
        generalize hsv : setValueByString o.path t v = sv at hok ⊢
        cases sv with
        | error e => dsimp only at hok; cases hok
        | ok gv =>
          dsimp only at hok ⊢
          refine ⟨gv, rfl, ?_⟩
          rw [parseFlagsGo_untouched os _ _ o.path hhead, setVal_same]
      | some v0 =>
        rw [hfull] at hsup
        dsimp only at hsup
        cases hshort : lookupFlag (eraseFlag fm (String.intercalate "." o.path)) o.short with
        | none =>
          rw [hshort] at hsup
          dsimp only at hsup
          have hv : v0 = v := Option.some.inj hsup
          subst hv
          rw [parseFlagsGo_cons_full o os fm st t v0 hty hfull hshort] at hok ⊢
          generalize hsv : setValueByString o.path t v0 = sv at hok ⊢
          cases sv with
          | error e => dsimp only at hok; cases hok
          | ok gv =>
            dsimp only at hok ⊢
            refine ⟨gv, rfl, ?_⟩
            rw [parseFlagsGo_untouched os _ _ o.path hhead, setVal_same]
        | some w =>
          rw [hshort] at hsup
          dsimp only at hsup
          cases hsup
    · have hne : o'.path ≠ o.path := by
        intro he
        exact hhead (he ▸ List.mem_map_of_mem FlatOpt.path hmem')
      cases hty' : o'.ty with
      | none =>
        rw [parseFlagsGo_cons_parent o' os fm st hty'] at hok ⊢
        exact ih fm st hnodup' hpair' hfm hmem' hsup hok
      | some t' =>
        have hFullKey : String.intercalate "." o'.path ∈ leafKeys o' := by
          rw [leafKeys, hty']
          simp
        cases hfull : lookupFlag fm (String.intercalate "." o'.path) with
        | none =>
          cases hshort : lookupFlag fm o'.short with
          | none =>
            rw [parseFlagsGo_cons_skip o' os fm st t' hty' hfull hshort] at hok ⊢
            exact ih fm st hnodup' hpair' hfm hmem' hsup hok
          | some v' =>
            have hShortKey : o'.short ∈ leafKeys o' := by
              have hs0 : o'.short ≠ "" := by
                intro h0
                rw [h0, lookupFlag_no_empty fm hfm] at hshort
                cases hshort
              rw [leafKeys, hty']
              simp [hs0]
            rw [parseFlagsGo_cons_short o' os fm st t' v' hty' hfull hshort] at hok ⊢
            have hkdisj : o'.short ∉ leafKeys o := hdisj o hmem' _ hShortKey
            have hsup' : flagSupply (eraseFlag fm o'.short) o = some v := by
              rw [flagSupply_erase fm o'.short o t hty hkdisj hfm]; exact hsup
            have hfm' := eraseFlag_no_empty fm o'.short hfm
            generalize hsv : setValueByString o'.path t' v' = sv at hok ⊢
            cases sv with
            | error e => dsimp only at hok; cases hok
            | ok gv =>
              dsimp only at hok ⊢
              exact ih _ _ hnodup' hpair' hfm' hmem' hsup' hok
        | some v' =>
          cases hshort : lookupFlag (eraseFlag fm (String.intercalate "." o'.path)) o'.short with
          | none =>
            rw [parseFlagsGo_cons_full o' os fm st t' v' hty' hfull hshort] at hok ⊢
            have hkdisj : String.intercalate "." o'.path ∉ leafKeys o :=
              hdisj o hmem' _ hFullKey
            have hsup' : flagSupply (eraseFlag fm (String.intercalate "." o'.path)) o = some v := by
              rw [flagSupply_erase fm _ o t hty hkdisj hfm]; exact hsup
            have hfm' := eraseFlag_no_empty fm (String.intercalate "." o'.path) hfm
            generalize hsv : setValueByString o'.path t' v' = sv at hok ⊢
            cases sv with
            | error e => dsimp only at hok; cases hok
            | ok gv =>
              dsimp only at hok ⊢
              exact ih _ _ hnodup' hpair' hfm' hmem' hsup' hok
          | some w =>
            rw [parseFlagsGo_cons_both o' os fm st t' v' w hty' hfull hshort] at hok
            cases hok

/-! ## Structure lemmas: flattened paths -/

theorem flattenList_cons (pre : List String) (f : FieldSpec) (fs : List FieldSpec) :
    flattenList pre (f :: fs) = flattenOne pre f ++ flattenList pre fs := by
  rw [flattenList]

theorem flattenList_mem_split (pre : List String) (fs : List FieldSpec) (o : FlatOpt)
    (h : o ∈ flattenList pre fs) : ∃ f ∈ fs, o ∈ flattenOne pre f := by
  induction fs with
  | nil => cases h
  | cons f fs ih =>
    rw [flattenList_cons] at h
    rcases List.mem_append.mp h with h1 | h2
    · exact ⟨f, List.mem_cons_self f fs, h1⟩
    · obtain ⟨g, hg, ho⟩ := ih h2
      exact ⟨g, List.mem_cons_of_mem f hg, ho⟩

theorem mem_flattenList_of_mem_flattenOne (pre : List String) (f : FieldSpec)
    (fs : List FieldSpec) (o : FlatOpt) (hf : f ∈ fs) (ho : o ∈ flattenOne pre f) :
    o ∈ flattenList pre fs := by
  induction fs with
  | nil => cases hf
  | cons g fs ih =>
    rw [flattenList_cons]
    rcases List.mem_cons.mp hf with rfl | hmem
    · exact List.mem_append_left _ ho
    · exact List.mem_append_right _ (ih hmem)

/-- Every option flattened out of a field has a path that strictly extends
the prefix with that field's identifier. -/
theorem flattenOne_path_ext : ∀ (pre : List String) (f : FieldSpec) (o : FlatOpt),
    o ∈ flattenOne pre f → ∃ tail, o.path = pre ++ f.id :: tail
  | pre, .leaf id sh dt t, o, h => by
    rw [flattenOne] at h
    rcases List.mem_singleton.mp h with rfl
    exact ⟨[], rfl⟩
  | pre, .parent id sh dt subs, o, h => by
    rw [flattenOne] at h
    rcases List.mem_append.mp h with h1 | h2
    · obtain ⟨g, hg, ho⟩ := flattenList_mem_split _ subs o h1
      obtain ⟨tail, htail⟩ := flattenOne_path_ext (pre ++ [id]) g o ho
      refine ⟨g.id :: tail, ?_⟩
      rw [htail, List.append_assoc]
      rfl
    · rcases List.mem_singleton.mp h2 with rfl
      exact ⟨[], rfl⟩
termination_by pre f => sizeOf f
decreasing_by
  have h1 := List.sizeOf_lt_of_mem hg
  simp only [FieldSpec.parent.sizeOf_spec]
  omega

/-- The component right after the prefix. -/
theorem path_ext_get (pre : List String) (x : String) (tail : List String) :
    (pre ++ x :: tail).get? pre.length = some x := by
  induction pre with
  | nil => rfl
  | cons a pre ih => simpa using ih

/-- Options flattened out of two sibling fields with distinct identifiers
have distinct paths. -/
theorem flattenOne_path_ne (pre : List String) (f g : FieldSpec) (o o' : FlatOpt)
    (hf : o ∈ flattenOne pre f) (hg : o' ∈ flattenOne pre g) (hne : f.id ≠ g.id) :
    o.path ≠ o'.path := by
  obtain ⟨t1, h1⟩ := flattenOne_path_ext pre f o hf
  obtain ⟨t2, h2⟩ := flattenOne_path_ext pre g o' hg
  intro he
  rw [h1, h2] at he
  have h3 : f.id :: t1 = g.id :: t2 := List.append_cancel_left he
  exact hne (by injection h3)

theorem nodup_of_hasDupIds_false : ∀ (l : List String), hasDupIds l = false → l.Nodup
  | [], _ => List.nodup_nil
  | x :: xs, h => by
    rw [hasDupIds, Bool.or_eq_false_iff] at h
    obtain ⟨h1, h2⟩ := h
    refine List.nodup_cons.mpr ⟨?_, nodup_of_hasDupIds_false xs h2⟩
    intro hmem
    rw [List.contains_eq_any_beq] at h1
    have : xs.any (x == ·) = true := List.any_eq_true.mpr ⟨x, hmem, by simp⟩
    rw [this] at h1
    cases h1

theorem not_mem_of_hasDupIds_false (x : String) (xs : List String)
    (h : hasDupIds (x :: xs) = false) : x ∉ xs := by
  have := nodup_of_hasDupIds_false (x :: xs) h
  exact (List.nodup_cons.mp this).1

theorem hasDupIds_false_tail (x : String) (xs : List String)
    (h : hasDupIds (x :: xs) = false) : hasDupIds xs = false := by
  rw [hasDupIds, Bool.or_eq_false_iff] at h
  exact h.2

mutual

/-- The paths flattened out of one structurally valid field are distinct. -/
theorem flattenOne_paths_nodup : ∀ (pre : List String) (f : FieldSpec),
    fieldOk f = true → ((flattenOne pre f).map FlatOpt.path).Nodup
  | pre, .leaf id sh dt t, _ => by
    rw [flattenOne]
    simp
  | pre, .parent id sh dt subs, h => by
    rw [fieldOk, Bool.and_eq_true] at h
    obtain ⟨h1, h2⟩ := h
    rw [flattenOne, List.map_append, List.nodup_append]
    refine ⟨flattenList_paths_nodup (pre ++ [id]) subs h1 (by
      rw [Bool.not_eq_true'] at h2; exact h2), by simp, ?_⟩
    intro p hp hp'
    simp only [List.map_cons, List.map_nil, List.mem_singleton] at hp'
    obtain ⟨o, ho, rfl⟩ := List.mem_map.mp hp
    obtain ⟨g, hg, hog⟩ := flattenList_mem_split _ subs o ho
    obtain ⟨tail, htail⟩ := flattenOne_path_ext (pre ++ [id]) g o hog
    apply absurd (congrArg List.length hp')
    rw [htail]
    simp

/-- The paths flattened out of a structurally valid field list are
distinct. -/
theorem flattenList_paths_nodup : ∀ (pre : List String) (fs : List FieldSpec),
    fieldsOk fs = true → hasDupIds (fs.map FieldSpec.id) = false →
    ((flattenList pre fs).map FlatOpt.path).Nodup
  | pre, [], _, _ => by rw [flattenList]; exact List.nodup_nil
  | pre, f :: fs, hok, hdup => by
    rw [fieldsOk, Bool.and_eq_true] at hok
    obtain ⟨h1, h2⟩ := hok
    rw [flattenList_cons, List.map_append, List.nodup_append]
    refine ⟨flattenOne_paths_nodup pre f h1,
      flattenList_paths_nodup pre fs h2
        (hasDupIds_false_tail _ _ (by simpa using hdup)), ?_⟩
    intro p hp hp'
    obtain ⟨o, ho, rfl⟩ := List.mem_map.mp hp
    obtain ⟨o', ho', he⟩ := List.mem_map.mp hp'
    obtain ⟨g, hg, hog⟩ := flattenList_mem_split pre fs o' ho'
    have hne : f.id ≠ g.id := by
      intro hid
      have hx := not_mem_of_hasDupIds_false f.id (fs.map FieldSpec.id)
        (by simpa using hdup)
      exact hx (hid ▸ List.mem_map_of_mem FieldSpec.id hg)
    exact flattenOne_path_ne pre f g o o' ho hog hne he.symm

end

/-! ## Structure lemmas: path resolution -/

theorem findField_mem (fields : List FieldSpec) (id : String) (f : FieldSpec)
    (h : findField fields id = some f) : f ∈ fields :=
  List.mem_of_find?_eq_some h

theorem findField_id (fields : List FieldSpec) (id : String) (f : FieldSpec)
    (h : findField fields id = some f) : f.id = id := by
  have := List.find?_some h
  exact of_decide_eq_true this

/-- A resolved option's path is the prefix followed by the queried path. -/
theorem resolveOpt_path : ∀ (pre : List String) (fields : List FieldSpec)
    (p : List String) (o : FlatOpt),
    resolveOpt pre fields p = some o → o.path = pre ++ p
  | pre, fields, [], o, h => by cases h
  | pre, fields, id :: rest, o, h => by
    rw [resolveOpt] at h
    cases hf : findField fields id with
    | none => rw [hf] at h; cases h
    | some f =>
      rw [hf] at h
      cases f with
      | leaf fid sh dt t =>
        dsimp only at h
        by_cases hr : rest = []
        · rw [if_pos hr] at h
          injection h with h
          subst hr
          rw [← h]
        · rw [if_neg hr] at h
          cases h
      | parent fid sh dt subs =>
        dsimp only at h
        by_cases hr : rest = []
        · rw [if_pos hr] at h
          injection h with h
          subst hr
          rw [← h]
        · rw [if_neg hr] at h
          have := resolveOpt_path (pre ++ [id]) subs rest o h
          rw [this, List.append_assoc]
          rfl

/-- A resolved option is among the flattened options. -/
theorem resolveOpt_mem : ∀ (pre : List String) (fields : List FieldSpec)
    (p : List String) (o : FlatOpt),
    resolveOpt pre fields p = some o → o ∈ flattenList pre fields
  | pre, fields, [], o, h => by cases h
  | pre, fields, id :: rest, o, h => by
    rw [resolveOpt] at h
    cases hf : findField fields id with
    | none => rw [hf] at h; cases h
    | some f =>
      rw [hf] at h
      have hfm := findField_mem fields id f hf
      have hfid := findField_id fields id f hf
      cases f with
      | leaf fid sh dt t =>
        simp only [FieldSpec.id] at hfid
        subst hfid
        dsimp only at h
        by_cases hr : rest = []
        · rw [if_pos hr] at h
          injection h with h
          refine mem_flattenList_of_mem_flattenOne pre _ fields o hfm ?_
          rw [flattenOne, ← h]
          exact List.mem_singleton.mpr rfl
        · rw [if_neg hr] at h
          cases h
      | parent fid sh dt subs =>
        simp only [FieldSpec.id] at hfid
        subst hfid
        dsimp only at h
        by_cases hr : rest = []
        · rw [if_pos hr] at h
          injection h with h
          refine mem_flattenList_of_mem_flattenOne pre _ fields o hfm ?_
          rw [flattenOne, ← h]
          exact List.mem_append_right _ (List.mem_singleton.mpr rfl)
        · rw [if_neg hr] at h
          refine mem_flattenList_of_mem_flattenOne pre _ fields o hfm ?_
          rw [flattenOne]
          exact List.mem_append_left _ (resolveOpt_mem (pre ++ [fid]) subs rest o h)

/-- A top-level resolution lands in the top-level option list. -/
theorem resolveOpt_single_top (fields : List FieldSpec) (id : String) (o : FlatOpt)
    (h : resolveOpt [] fields [id] = some o) : o ∈ topOpts fields := by
  rw [resolveOpt] at h
  cases hf : findField fields id with
  | none => rw [hf] at h; cases h
  | some f =>
    rw [hf] at h
    have hfm := findField_mem fields id f hf
    have hfid := findField_id fields id f hf
    cases f with
    | leaf fid sh dt t =>
      simp only [FieldSpec.id] at hfid
      subst hfid
      dsimp only at h
      rw [if_pos rfl] at h
      injection h with h
      rw [topOpts]
      refine List.mem_map.mpr ⟨.leaf fid sh dt t, hfm, ?_⟩
      rw [← h]
      rfl
    | parent fid sh dt subs =>
      simp only [FieldSpec.id] at hfid
      subst hfid
      dsimp only at h
      rw [if_pos rfl] at h
      injection h with h
      rw [topOpts]
      refine List.mem_map.mpr ⟨.parent fid sh dt subs, hfm, ?_⟩
      rw [← h]
      rfl

/-- Top-level option paths are the singleton identifiers. -/
theorem topOpts_path_single (fields : List FieldSpec) (o : FlatOpt)
    (h : o ∈ topOpts fields) : ∃ id, o.path = [id] := by
  rw [topOpts] at h
  obtain ⟨f, hf, rfl⟩ := List.mem_map.mp h
  cases f with
  | leaf id sh dt t => exact ⟨id, rfl⟩
  | parent id sh dt subs => exact ⟨id, rfl⟩

/-- With distinct top-level identifiers, the top-level option paths are
distinct. -/
theorem topOpts_paths_nodup (fields : List FieldSpec)
    (h : hasDupIds (fields.map FieldSpec.id) = false) :
    ((topOpts fields).map FlatOpt.path).Nodup := by
  have hids := nodup_of_hasDupIds_false _ h
  have hmapeq : (topOpts fields).map FlatOpt.path =
      fields.map (fun f => [f.id]) := by
    rw [topOpts, List.map_map]
    apply List.map_congr_left
    intro f _
    cases f with
    | leaf id sh dt t => rfl
    | parent id sh dt subs => rfl
  rw [hmapeq]
  have : fields.map (fun f => [f.id]) =
      (fields.map FieldSpec.id).map (fun id => [id]) := by
    rw [List.map_map]
    rfl
  rw [this]
  exact hids.map fun a b hab => by injection hab

/-! ## One-step unfolding lemmas for the file pass -/

theorem parseMapOptsGo_cons_skip (st : State) (fm : List (String × DynVal))
    (pre : List String) (f : FieldSpec) (fs : List FieldSpec)
    (h : lookupDyn fm f.id = none) :
    parseMapOptsGo st fm pre (f :: fs) = parseMapOptsGo st fm pre fs := by
  rw [parseMapOptsGo, h]

theorem parseMapOptsGo_cons_leaf (st : State) (fm : List (String × DynVal))
    (pre : List String) (id sh : String) (dt : Option String) (t : GoType)
    (fs : List FieldSpec) (val : DynVal)
    (h : lookupDyn fm id = some val) :
    parseMapOptsGo st fm pre (.leaf id sh dt t :: fs) =
      match setValue (pre ++ [id]) t val with
      | .ok v => parseMapOptsGo (setVal st (pre ++ [id]) v) fm pre fs
      | .error e => (st, some (.wrapped (pre ++ [id]) e)) := by
  rw [parseMapOptsGo]
  simp only [FieldSpec.id]
  rw [h]

theorem parseMapOptsGo_cons_parent_map (st : State) (fm : List (String × DynVal))
    (pre : List String) (id sh : String) (dt : Option String)
    (subs fs : List FieldSpec) (m' : List (String × DynVal))
    (h : lookupDyn fm id = some (.dMap m')) :
    parseMapOptsGo st fm pre (.parent id sh dt subs :: fs) =
      match parseMapOptsGo st (formatMapKeys m') (pre ++ [id]) subs with
      | (st', none) => parseMapOptsGo st' fm pre fs
      | (st', some e) => (st', some e) := by
  rw [parseMapOptsGo]
  simp only [FieldSpec.id]
  rw [h]

theorem parseMapOptsGo_cons_parent_bad (st : State) (fm : List (String × DynVal))
    (pre : List String) (id sh : String) (dt : Option String)
    (subs fs : List FieldSpec) (val : DynVal)
    (h : lookupDyn fm id = some val) (hbad : ∀ m', val ≠ .dMap m') :
    parseMapOptsGo st fm pre (.parent id sh dt subs :: fs) =
      (st, some (.compositeValue (pre ++ [id]))) := by
  rw [parseMapOptsGo]
  simp only [FieldSpec.id]
  rw [h]
  cases val with
  | dMap m' => exact absurd rfl (hbad m')
  | dStr s => rfl
  | dBool b => rfl
  | dInt n => rfl
  | dList xs => rfl

/-! ## Effect of the file pass -/

/-- A path outside the flattened options of a subtree is untouched by the
file pass over that subtree. -/
theorem parseMapOptsGo_untouched : ∀ (st : State) (fm : List (String × DynVal))
    (pre : List String) (fields : List FieldSpec) (p : List String),
    p ∉ (flattenList pre fields).map FlatOpt.path →
    (parseMapOptsGo st fm pre fields).1 p = st p
  | st, fm, pre, [], p, hp => by rw [parseMapOptsGo]
  | st, fm, pre, f :: fs, p, hp => by
    rw [flattenList_cons, List.map_append] at hp
    have hp1 : p ∉ (flattenOne pre f).map FlatOpt.path :=
      fun h => hp (List.mem_append_left _ h)
    have hp2 : p ∉ (flattenList pre fs).map FlatOpt.path :=
      fun h => hp (List.mem_append_right _ h)
    cases f with
    | leaf id sh dt t =>
      cases hlk : lookupDyn fm id with
      | none =>
        rw [parseMapOptsGo_cons_skip st fm pre _ fs (by
          simp only [FieldSpec.id]; exact hlk)]
        exact parseMapOptsGo_untouched st fm pre fs p hp2
      | some val =>
        rw [parseMapOptsGo_cons_leaf st fm pre id sh dt t fs val hlk]
        have hne : p ≠ pre ++ [id] := by
          intro he
          apply hp1
          rw [flattenOne]
          simp [he]
        cases hsv : setValue (pre ++ [id]) t val with
        | error e => rfl
        | ok v =>
          dsimp only
          rw [parseMapOptsGo_untouched _ fm pre fs p hp2,
            setVal_other st (pre ++ [id]) p v hne]
    | parent id sh dt subs =>
      cases hlk : lookupDyn fm id with
      | none =>
        rw [parseMapOptsGo_cons_skip st fm pre _ fs (by
          simp only [FieldSpec.id]; exact hlk)]
        exact parseMapOptsGo_untouched st fm pre fs p hp2
      | some val =>
        have hsub : p ∉ (flattenList (pre ++ [id]) subs).map FlatOpt.path := by
          intro h
          apply hp1
          rw [flattenOne, List.map_append]
          exact List.mem_append_left _ h
        cases val with
        | dMap m' =>
          rw [parseMapOptsGo_cons_parent_map st fm pre id sh dt subs fs m' hlk]
          have hinner := parseMapOptsGo_untouched st (formatMapKeys m') (pre ++ [id]) subs p hsub
          rcases hi : parseMapOptsGo st (formatMapKeys m') (pre ++ [id]) subs with ⟨st', e⟩
          rw [hi] at hinner
          cases e with
          | none =>
            dsimp only
            rw [parseMapOptsGo_untouched st' fm pre fs p hp2]
            exact hinner
          | some e => exact hinner
        | dStr s =>
          rw [parseMapOptsGo_cons_parent_bad st fm pre id sh dt subs fs _ hlk
            (fun m' h => by cases h)]
        | dBool b =>
          rw [parseMapOptsGo_cons_parent_bad st fm pre id sh dt subs fs _ hlk
            (fun m' h => by cases h)]
        | dInt n =>
          rw [parseMapOptsGo_cons_parent_bad st fm pre id sh dt subs fs _ hlk
            (fun m' h => by cases h)]
        | dList xs =>
          rw [parseMapOptsGo_cons_parent_bad st fm pre id sh dt subs fs _ hlk
            (fun m' h => by cases h)]
termination_by st fm pre fields => sizeOf fields

/-- A path that continues the prefix with an identifier not among a field
list's identifiers is not a flattened path of that list. -/
theorem path_notin_siblings (pre : List String) (id : String) (rest : List String)
    (fs : List FieldSpec) (hid : id ∉ fs.map FieldSpec.id) :
    (pre ++ id :: rest) ∉ (flattenList pre fs).map FlatOpt.path := by
  intro h
  obtain ⟨o', ho', he⟩ := List.mem_map.mp h
  obtain ⟨g, hg, hog⟩ := flattenList_mem_split pre fs o' ho'
  obtain ⟨tail, htail⟩ := flattenOne_path_ext pre g o' hog
  rw [htail] at he
  have h3 : g.id :: tail = id :: rest := List.append_cancel_left he
  have h4 : g.id = id := by injection h3
  exact hid (h4 ▸ List.mem_map_of_mem FieldSpec.id hg)

theorem findField_cons_ne (f : FieldSpec) (fs : List FieldSpec) (id : String)
    (h : f.id ≠ id) : findField (f :: fs) id = findField fs id := by
  rw [findField, findField, List.find?]
  simp [h]

theorem findField_cons_eq (f : FieldSpec) (fs : List FieldSpec) (id : String)
    (h : f.id = id) : findField (f :: fs) id = some f := by
  rw [findField, List.find?]
  simp [h]

/-- The option the file map supplies through the nesting chain is written
with the `setValue`-coerced value by a successful file pass. -/
theorem parseMapOptsGo_sets : ∀ (st : State) (m : List (String × DynVal))
    (pre : List String) (fields : List FieldSpec) (rel : List String)
    (o : FlatOpt) (t : GoType) (dv : DynVal),
    createOk fields = true →
    resolveOpt pre fields rel = some o → o.ty = some t →
    fileSupplyAt m fields rel = some dv →
    (parseMapOptsGo st (formatMapKeys m) pre fields).2 = none →
    ∃ gv, setValue o.path t dv = .ok gv ∧
      (parseMapOptsGo st (formatMapKeys m) pre fields).1 o.path = gv
  | st, m, pre, [], rel, o, t, dv, hwf, hres, hty, hsup, hok => by
    cases rel with
    | nil => cases hres
    | cons id rest => rw [resolveOpt, findField, List.find?] at hres; cases hres
  | st, m, pre, f :: fs, rel, o, t, dv, hwf, hres, hty, hsup, hok => by
    cases rel with
    | nil => cases hres
    | cons id rest =>
    rw [createOk, Bool.and_eq_true, fieldsOk, Bool.and_eq_true] at hwf
    obtain ⟨⟨hokf, hokfs⟩, hdup⟩ := hwf
    rw [Bool.not_eq_true'] at hdup
    have hpath := resolveOpt_path pre (f :: fs) (id :: rest) o hres
    by_cases hfid : f.id = id
    · -- the head field carries the addressed option
      have hout : o.path ∉ (flattenList pre fs).map FlatOpt.path := by
        rw [hpath]
        exact path_notin_siblings pre id rest fs
          (hfid ▸ not_mem_of_hasDupIds_false f.id (fs.map FieldSpec.id) (by simpa using hdup))
      rw [resolveOpt, findField_cons_eq f fs id hfid] at hres
      rw [fileSupplyAt, findField_cons_eq f fs id hfid] at hsup
      cases f with
      | leaf fid sh dt t' =>
        dsimp only at hres hsup
        by_cases hr : rest = []
        · rw [if_pos hr] at hres hsup
          subst hr
          injection hres with hres
          simp only [FieldSpec.id] at hfid
          subst hfid
          have hty' : t' = t := by
            rw [← hres] at hty
            injection hty
          subst hty'
          rw [parseMapOptsGo_cons_leaf st (formatMapKeys m) pre fid sh dt t' fs dv hsup] at hok ⊢
          generalize hsv : setValue (pre ++ [fid]) t' dv = sv at hok ⊢
          cases sv with
          | error e => dsimp only at hok; cases hok
          | ok gv =>
            dsimp only at hok ⊢
            refine ⟨gv, by rw [hpath]; exact hsv, ?_⟩
            rw [hpath]
            rw [parseMapOptsGo_untouched _ _ pre fs _ (hpath ▸ hout), setVal_same]
        · rw [if_neg hr] at hres
          cases hres
      | parent fid sh dt subs =>
        dsimp only at hres hsup
        by_cases hr : rest = []
        · rw [if_pos hr] at hres
          injection hres with hres
          rw [← hres] at hty
          cases hty
        · rw [if_neg hr] at hres hsup
          simp only [FieldSpec.id] at hfid
          subst hfid
          generalize hlk : lookupDyn (formatMapKeys m) fid = lk at hsup
          cases lk with
          | none => dsimp only at hsup; cases hsup
          | some val =>
            cases val with
            | dMap m' =>
              dsimp only at hsup
              rw [parseMapOptsGo_cons_parent_map st (formatMapKeys m) pre fid sh dt subs fs m' hlk] at hok ⊢
              have hsubwf : createOk subs = true := by
                rw [fieldOk] at hokf
                rw [createOk]
                exact hokf
              rcases hi : parseMapOptsGo st (formatMapKeys m') (pre ++ [fid]) subs with ⟨st', e⟩
              rw [hi] at hok
              cases e with
              | some e => exact Option.noConfusion hok
              | none =>
                obtain ⟨gv, hgv, hst⟩ := parseMapOptsGo_sets st m' (pre ++ [fid]) subs rest o t dv
                  hsubwf hres hty hsup (by rw [hi])
                refine ⟨gv, hgv, ?_⟩
                show (parseMapOptsGo st' (formatMapKeys m) pre fs).1 o.path = gv
                rw [parseMapOptsGo_untouched st' (formatMapKeys m) pre fs o.path hout]
                rw [hi] at hst
                exact hst
            | dStr s => dsimp only at hsup; cases hsup
            | dBool b => dsimp only at hsup; cases hsup
            | dInt n => dsimp only at hsup; cases hsup
            | dList xs => dsimp only at hsup; cases hsup
    · -- the head field is unrelated; it never touches the addressed path
      rw [resolveOpt, findField_cons_ne f fs id hfid] at hres
      rw [fileSupplyAt, findField_cons_ne f fs id hfid] at hsup
      have hres' : resolveOpt pre fs (id :: rest) = some o := by
        rw [resolveOpt]; exact hres
      have hsup' : fileSupplyAt m fs (id :: rest) = some dv := by
        rw [fileSupplyAt]; exact hsup
      have hwf' : createOk fs = true := by
        rw [createOk, Bool.and_eq_true]
        exact ⟨hokfs, by rw [Bool.not_eq_true']; exact hasDupIds_false_tail _ _ (by simpa using hdup)⟩
      have hnotf : o.path ∉ (flattenOne pre f).map FlatOpt.path := by
        rw [hpath]
        intro h
        obtain ⟨o', ho', he⟩ := List.mem_map.mp h
        obtain ⟨tail, htail⟩ := flattenOne_path_ext pre f o' ho'
        rw [htail] at he
        have h3 : f.id :: tail = id :: rest := List.append_cancel_left he
        exact hfid (by injection h3)
      cases f with
      | leaf fid sh dt t' =>
        cases hlk : lookupDyn (formatMapKeys m) fid with
        | none =>
          rw [parseMapOptsGo_cons_skip st (formatMapKeys m) pre _ fs
            (by simp only [FieldSpec.id]; exact hlk)] at hok ⊢
          exact parseMapOptsGo_sets st m pre fs (id :: rest) o t dv hwf' hres' hty hsup' hok
        | some val =>
          rw [parseMapOptsGo_cons_leaf st (formatMapKeys m) pre fid sh dt t' fs val hlk] at hok ⊢
          have hneq : o.path ≠ pre ++ [fid] := by
            intro he
            apply hnotf
            rw [he, flattenOne]
            simp
          generalize hsv : setValue (pre ++ [fid]) t' val = sv at hok ⊢
          cases sv with
          | error e => dsimp only at hok; cases hok
          | ok gv =>
            dsimp only at hok ⊢
            obtain ⟨gv', hgv', hst⟩ := parseMapOptsGo_sets (setVal st (pre ++ [fid]) gv) m pre fs
              (id :: rest) o t dv hwf' hres' hty hsup' hok
            exact ⟨gv', hgv', hst⟩
      | parent fid sh dt subs =>
        cases hlk : lookupDyn (formatMapKeys m) fid with
        | none =>
          rw [parseMapOptsGo_cons_skip st (formatMapKeys m) pre _ fs
            (by simp only [FieldSpec.id]; exact hlk)] at hok ⊢
          exact parseMapOptsGo_sets st m pre fs (id :: rest) o t dv hwf' hres' hty hsup' hok
        | some val =>
          have hsubout : o.path ∉ (flattenList (pre ++ [fid]) subs).map FlatOpt.path := by
            intro h
            apply hnotf
            rw [flattenOne, List.map_append]
            exact List.mem_append_left _ h
          cases val with
          | dMap m' =>
            rw [parseMapOptsGo_cons_parent_map st (formatMapKeys m) pre fid sh dt subs fs m' hlk] at hok ⊢
            rcases hi : parseMapOptsGo st (formatMapKeys m') (pre ++ [fid]) subs with ⟨st', e⟩
            rw [hi] at hok
            cases e with
            | some e => exact Option.noConfusion hok
            | none =>
              have hok' : (parseMapOptsGo st' (formatMapKeys m) pre fs).2 = none := hok
              exact parseMapOptsGo_sets st' m pre fs (id :: rest) o t dv hwf' hres' hty hsup' hok'
          | dStr s =>
            rw [parseMapOptsGo_cons_parent_bad st (formatMapKeys m) pre fid sh dt subs fs _ hlk
              (fun m' h => by cases h)] at hok
            cases hok
          | dBool b =>
            rw [parseMapOptsGo_cons_parent_bad st (formatMapKeys m) pre fid sh dt subs fs _ hlk
              (fun m' h => by cases h)] at hok
            cases hok
          | dInt n =>
            rw [parseMapOptsGo_cons_parent_bad st (formatMapKeys m) pre fid sh dt subs fs _ hlk
              (fun m' h => by cases h)] at hok
            cases hok
          | dList xs =>
            rw [parseMapOptsGo_cons_parent_bad st (formatMapKeys m) pre fid sh dt subs fs _ hlk
              (fun m' h => by cases h)] at hok
            cases hok
termination_by st m pre fields rel => sizeOf fields + rel.length

/-- An option the file map does not supply is untouched by a successful file
pass. -/
theorem parseMapOptsGo_unset : ∀ (st : State) (m : List (String × DynVal))
    (pre : List String) (fields : List FieldSpec) (rel : List String)
    (o : FlatOpt) (t : GoType),
    createOk fields = true →
    resolveOpt pre fields rel = some o → o.ty = some t →
    fileSupplyAt m fields rel = none →
    (parseMapOptsGo st (formatMapKeys m) pre fields).2 = none →
    (parseMapOptsGo st (formatMapKeys m) pre fields).1 o.path = st o.path
  | st, m, pre, [], rel, o, t, hwf, hres, hty, hsup, hok => by
    cases rel with
    | nil => cases hres
    | cons id rest => rw [resolveOpt, findField, List.find?] at hres; cases hres
  | st, m, pre, f :: fs, rel, o, t, hwf, hres, hty, hsup, hok => by
    cases rel with
    | nil => cases hres
    | cons id rest =>
    rw [createOk, Bool.and_eq_true, fieldsOk, Bool.and_eq_true] at hwf
    obtain ⟨⟨hokf, hokfs⟩, hdup⟩ := hwf
    rw [Bool.not_eq_true'] at hdup
    have hpath := resolveOpt_path pre (f :: fs) (id :: rest) o hres
    by_cases hfid : f.id = id
    · have hout : o.path ∉ (flattenList pre fs).map FlatOpt.path := by
        rw [hpath]
        exact path_notin_siblings pre id rest fs
          (hfid ▸ not_mem_of_hasDupIds_false f.id (fs.map FieldSpec.id) (by simpa using hdup))
      rw [resolveOpt, findField_cons_eq f fs id hfid] at hres
      rw [fileSupplyAt, findField_cons_eq f fs id hfid] at hsup
      cases f with
      | leaf fid sh dt t' =>
        dsimp only at hres hsup
        by_cases hr : rest = []
        · rw [if_pos hr] at hres hsup
          simp only [FieldSpec.id] at hfid
          subst hfid
          rw [parseMapOptsGo_cons_skip st (formatMapKeys m) pre _ fs
            (by simp only [FieldSpec.id]; exact hsup)] at hok ⊢
          exact parseMapOptsGo_untouched st (formatMapKeys m) pre fs o.path hout
        · rw [if_neg hr] at hres
          cases hres
      | parent fid sh dt subs =>
        dsimp only at hres hsup
        by_cases hr : rest = []
        · rw [if_pos hr] at hres
          injection hres with hres
          rw [← hres] at hty
          cases hty
        · rw [if_neg hr] at hres hsup
          simp only [FieldSpec.id] at hfid
          subst hfid
          generalize hlk : lookupDyn (formatMapKeys m) fid = lk at hsup
          cases lk with
          | none =>
            rw [parseMapOptsGo_cons_skip st (formatMapKeys m) pre _ fs
              (by simp only [FieldSpec.id]; exact hlk)] at hok ⊢
            exact parseMapOptsGo_untouched st (formatMapKeys m) pre fs o.path hout
          | some val =>
            cases val with
            | dMap m' =>
              dsimp only at hsup
              rw [parseMapOptsGo_cons_parent_map st (formatMapKeys m) pre fid sh dt subs fs m' hlk] at hok ⊢
              have hsubwf : createOk subs = true := by
                rw [fieldOk] at hokf
                rw [createOk]
                exact hokf
              rcases hi : parseMapOptsGo st (formatMapKeys m') (pre ++ [fid]) subs with ⟨st', e⟩
              rw [hi] at hok
              cases e with
              | some e => exact Option.noConfusion hok
              | none =>
                have hst := parseMapOptsGo_unset st m' (pre ++ [fid]) subs rest o t
                  hsubwf hres hty hsup (by rw [hi])
                rw [hi] at hst
                show (parseMapOptsGo st' (formatMapKeys m) pre fs).1 o.path = st o.path
                rw [parseMapOptsGo_untouched st' (formatMapKeys m) pre fs o.path hout]
                exact hst
            | dStr s =>
              rw [parseMapOptsGo_cons_parent_bad st (formatMapKeys m) pre fid sh dt subs fs _ hlk
                (fun m' h => by cases h)] at hok
              cases hok
            | dBool b =>
              rw [parseMapOptsGo_cons_parent_bad st (formatMapKeys m) pre fid sh dt subs fs _ hlk
                (fun m' h => by cases h)] at hok
              cases hok
            | dInt n =>
              rw [parseMapOptsGo_cons_parent_bad st (formatMapKeys m) pre fid sh dt subs fs _ hlk
                (fun m' h => by cases h)] at hok
              cases hok
            | dList xs =>
              rw [parseMapOptsGo_cons_parent_bad st (formatMapKeys m) pre fid sh dt subs fs _ hlk
                (fun m' h => by cases h)] at hok
              cases hok
    · rw [resolveOpt, findField_cons_ne f fs id hfid] at hres
      rw [fileSupplyAt, findField_cons_ne f fs id hfid] at hsup
      have hres' : resolveOpt pre fs (id :: rest) = some o := by
        rw [resolveOpt]; exact hres
      have hsup' : fileSupplyAt m fs (id :: rest) = none := by
        rw [fileSupplyAt]; exact hsup
      have hwf' : createOk fs = true := by
        rw [createOk, Bool.and_eq_true]
        exact ⟨hokfs, by rw [Bool.not_eq_true']; exact hasDupIds_false_tail _ _ (by simpa using hdup)⟩
      have hnotf : o.path ∉ (flattenOne pre f).map FlatOpt.path := by
        rw [hpath]
        intro h
        obtain ⟨o', ho', he⟩ := List.mem_map.mp h
        obtain ⟨tail, htail⟩ := flattenOne_path_ext pre f o' ho'
        rw [htail] at he
        have h3 : f.id :: tail = id :: rest := List.append_cancel_left he
        exact hfid (by injection h3)
      cases f with
      | leaf fid sh dt t' =>
        cases hlk : lookupDyn (formatMapKeys m) fid with
        | none =>
          rw [parseMapOptsGo_cons_skip st (formatMapKeys m) pre _ fs
            (by simp only [FieldSpec.id]; exact hlk)] at hok ⊢
          exact parseMapOptsGo_unset st m pre fs (id :: rest) o t hwf' hres' hty hsup' hok
        | some val =>
          rw [parseMapOptsGo_cons_leaf st (formatMapKeys m) pre fid sh dt t' fs val hlk] at hok ⊢
          have hneq : o.path ≠ pre ++ [fid] := by
            intro he
            apply hnotf
            rw [he, flattenOne]
            simp
          generalize hsv : setValue (pre ++ [fid]) t' val = sv at hok ⊢
          cases sv with
          | error e => dsimp only at hok; cases hok
          | ok gv =>
            dsimp only at hok ⊢
            rw [parseMapOptsGo_unset (setVal st (pre ++ [fid]) gv) m pre fs (id :: rest) o t
              hwf' hres' hty hsup' hok]
            exact setVal_other st (pre ++ [fid]) o.path gv hneq
      | parent fid sh dt subs =>
        cases hlk : lookupDyn (formatMapKeys m) fid with
        | none =>
          rw [parseMapOptsGo_cons_skip st (formatMapKeys m) pre _ fs
            (by simp only [FieldSpec.id]; exact hlk)] at hok ⊢
          exact parseMapOptsGo_unset st m pre fs (id :: rest) o t hwf' hres' hty hsup' hok
        | some val =>
          have hsubout : o.path ∉ (flattenList (pre ++ [fid]) subs).map FlatOpt.path := by
            intro h
            apply hnotf
            rw [flattenOne, List.map_append]
            exact List.mem_append_left _ h
          cases val with
          | dMap m' =>
            rw [parseMapOptsGo_cons_parent_map st (formatMapKeys m) pre fid sh dt subs fs m' hlk] at hok ⊢
            rcases hi : parseMapOptsGo st (formatMapKeys m') (pre ++ [fid]) subs with ⟨st', e⟩
            rw [hi] at hok
            cases e with
            | some e => exact Option.noConfusion hok
            | none =>
              have hok' : (parseMapOptsGo st' (formatMapKeys m) pre fs).2 = none := hok
              have hst' : st' o.path = st o.path := by
                have := parseMapOptsGo_untouched st (formatMapKeys m') (pre ++ [fid]) subs o.path hsubout
                rw [hi] at this
                exact this
              show (parseMapOptsGo st' (formatMapKeys m) pre fs).1 o.path = st o.path
              rw [parseMapOptsGo_unset st' m pre fs (id :: rest) o t hwf' hres' hty hsup' hok']
              exact hst'
          | dStr s =>
            rw [parseMapOptsGo_cons_parent_bad st (formatMapKeys m) pre fid sh dt subs fs _ hlk
              (fun m' h => by cases h)] at hok
            cases hok
          | dBool b =>
            rw [parseMapOptsGo_cons_parent_bad st (formatMapKeys m) pre fid sh dt subs fs _ hlk
              (fun m' h => by cases h)] at hok
            cases hok
          | dInt n =>
            rw [parseMapOptsGo_cons_parent_bad st (formatMapKeys m) pre fid sh dt subs fs _ hlk
              (fun m' h => by cases h)] at hok
            cases hok
          | dList xs =>
            rw [parseMapOptsGo_cons_parent_bad st (formatMapKeys m) pre fid sh dt subs fs _ hlk
              (fun m' h => by cases h)] at hok
            cases hok
termination_by st m pre fields rel => sizeOf fields + rel.length

/-- The state component of `parseFlagsPass` is that of the option loop. -/
theorem parseFlagsPass_fst (opts : List FlatOpt) (fm : List (String × String))
    (st : State) : (parseFlagsPass opts fm st).1 = (parseFlagsGo opts fm st).1 := by
  rw [parseFlagsPass]
  rcases h : parseFlagsGo opts fm st with ⟨st', rest, e⟩
  cases e with
  | none =>
    dsimp only
    by_cases hr : rest.isEmpty <;> simp [hr]
  | some e => rfl

/-- A successful `parseFlagsPass` means the option loop finished without an
error. -/
theorem parseFlagsPass_ok (opts : List FlatOpt) (fm : List (String × String))
    (st : State) (h : (parseFlagsPass opts fm st).2 = none) :
    (parseFlagsGo opts fm st).2.2 = none := by
  rw [parseFlagsPass] at h
  rcases hgo : parseFlagsGo opts fm st with ⟨st', rest, e⟩
  rw [hgo] at h
  cases e with
  | none => rfl
  | some e =>
    dsimp only at h
    cases h

/-! ## Claim theorems: scalar coercion -/

/-- C5. For every signed-integer-typed field, string coercion parses base
10 and checks overflow against the field's declared bit width (8/16/32/64 or
the platform word), not a fixed width: for every string denoting an integer
(sign and decimal digits), if the value lies within the declared type's range
the coercion stores exactly that integer, and otherwise (in particular for
every value that fits in 64 bits but not in the declared width) it returns a
`parseError` naming the text and the target type. -/
theorem parseInt_checks_declared_width (w : IntWidth) (s : String) (n : Int)
    (hs : decInt? s = some n) :
    (-(2 ^ (effBits w.strconvBitSize - 1) : Int) ≤ n ∧
        n ≤ 2 ^ (effBits w.strconvBitSize - 1) - 1 →
      parseSimpleValue (.simple (.int w)) s = .ok (.vInt w n)) ∧
    (¬ (-(2 ^ (effBits w.strconvBitSize - 1) : Int) ≤ n ∧
        n ≤ 2 ^ (effBits w.strconvBitSize - 1) - 1) →
      parseSimpleValue (.simple (.int w)) s = .error (.parseError s (.simple (.int w)))) := by
  constructor <;> intro h <;>
    simp [parseSimpleValue, parseInt, goParseInt, hs, h]

/-- Witness for C5 at an `int8` field: `200` fits in 64 bits but not in 8,
so coercion fails; `-42` is in range and is stored exactly. -/
theorem parseInt_checks_declared_width_witness :
    decInt? "200" = some 200 ∧ decInt? "-42" = some (-42) ∧
    parseSimpleValue (.simple (.int .w8)) "200" =
      .error (.parseError "200" (.simple (.int .w8))) ∧
    parseSimpleValue (.simple (.int .w8)) "-42" = .ok (.vInt .w8 (-42)) :=
  ⟨rfl, rfl,
    (parseInt_checks_declared_width .w8 "200" 200 rfl).2 (by decide),
    (parseInt_checks_declared_width .w8 "-42" (-42) rfl).1 (by decide)⟩

/-- C7. For every `[]byte` field: text from any text source is decoded as
standard base64 (`"AQID"` yields `[1,2,3]`); invalid base64 yields a returned
`parseError` naming the offending text and the target type (distinct from the
`panicNotSimple` outcome that models a Go panic); and a decoded-file value is
never moved into a `[]byte` field through the implicit conversion path of
`setValue` — a dynamic string falls through to the explicit base64 text path
(`setValueByString`), and non-string dynamic values are rejected as
inconvertible rather than reinterpreted. -/
theorem byte_slice_base64_only (path : List String) :
    (∀ s, setValue path .bytes (.dStr s) = setValueByString path .bytes s) ∧
    (parseSimpleValue .bytes "AQID" = .ok (.vBytes (some [1, 2, 3]))) ∧
    (∀ s, goBase64Decode s = none →
      parseSimpleValue .bytes s = .error (.parseError s .bytes)) ∧
    (∀ s, setValueByString path .bytes s =
      match parseSimpleValue .bytes s with
      | .ok v => .ok v
      | .error e => .error (.wrapped path e)) ∧
    (∀ n, setValue path .bytes (.dInt n) = .error (.convertibleError .bytes)) ∧
    (∀ b, setValue path .bytes (.dBool b) = .error (.convertibleError .bytes)) ∧
    (∀ xs, setValue path .bytes (.dList xs) = .error (.convertibleError .bytes)) := by
  refine ⟨fun s => ?_, rfl, fun s h => ?_, fun s => ?_, fun n => ?_, fun b => ?_, fun xs => ?_⟩
  · simp [setValue, assignableTo, convertibleTo, DynVal.ty]
  · simp [parseSimpleValue, h]
  · cases h : parseSimpleValue .bytes s <;> simp [setValueByString, h]
  · simp [setValue, assignableTo, convertibleTo, DynVal.ty, isSliceTy]
  · simp [setValue, assignableTo, convertibleTo, DynVal.ty, isSliceTy]
  · simp [setValue, assignableTo, convertibleTo, DynVal.ty, isSliceTy]

/-- Witness for C7: the path argument instantiated, the invalid-base64
hypothesis discharged on the concrete text `"strng"`. -/
theorem byte_slice_base64_only_witness :
    goBase64Decode "strng" = none ∧
    parseSimpleValue .bytes "strng" = .error (.parseError "strng" .bytes) ∧
    setValue ["bytes2"] .bytes (.dStr "AQID") = setValueByString ["bytes2"] .bytes "AQID" :=
  ⟨rfl, (byte_slice_base64_only ["bytes2"]).2.2.1 "strng" rfl,
    (byte_slice_base64_only ["bytes2"]).1 "AQID"⟩

/-! ## The element loop of `parseSlice` -/

/-- When every CSV element coerces, the loop returns them all, in order. -/
theorem parseElems_all_ok (elem : SimpleType) (vals : List String)
    (h : ∀ x ∈ vals, ∃ v, parseSimpleValue (.simple elem) x = .ok v) :
    ∃ ws, parseElems elem vals = .ok ws := by
  induction vals with
  | nil => exact ⟨[], rfl⟩
  | cons x xs ih =>
    obtain ⟨v, hv⟩ := h x (List.mem_cons_self x xs)
    obtain ⟨ws, hws⟩ := ih fun y hy => h y (List.mem_cons_of_mem x hy)
    exact ⟨v :: ws, by simp [parseElems, hv, hws]⟩

/-- One inconvertible element aborts the whole loop with an error. -/
theorem parseElems_elem_fails (elem : SimpleType) (vals : List String) (x : String)
    (hx : x ∈ vals) (h : ∀ v, parseSimpleValue (.simple elem) x ≠ .ok v) :
    ∃ e, parseElems elem vals = .error e := by
  induction vals with
  | nil => cases hx
  | cons y ys ih =>
    rcases List.mem_cons.mp hx with rfl | hmem
    · cases hv : parseSimpleValue (.simple elem) x with
      | error e => exact ⟨e, by simp [parseElems, hv]⟩
      | ok v => exact absurd hv (h v)
    · cases hv : parseSimpleValue (.simple elem) y with
      | error e => exact ⟨e, by simp [parseElems, hv]⟩
      | ok v =>
        obtain ⟨e, he⟩ := ih hmem
        exact ⟨e, by simp [parseElems, hv, he]⟩

/-- C6. For every slice-typed field other than a byte slice, coercing a
raw string splits it as one comma-separated record with RFC-4180-style
quoting and coerces each element through the scalar path: the `[]string`
field given `a,b,"c,d"` ends up `["a","b","c,d"]` (shown both for the bare
coercion and for the full `Load` pipeline with that text in the environment),
every element coercing means the slice of the coerced elements is stored, and
any single element failing to coerce makes the whole sequence assignment
fail with an error. -/
theorem slice_csv_coercion (path : List String) :
    (setValueByString path (.slice .str) "a,b,\"c,d\"" =
      .ok (.vSlice .str (some [.vStr "a", .vStr "b", .vStr "c,d"]))) ∧
    ((LoadModel [FieldSpec.leaf "tags" "" none (.slice .str)] (fun _ => .vSlice .str none)
        none "" (fun k => if k = "TAGS" then some "a,b,\"c,d\"" else none) []).state ["tags"] =
      .vSlice .str (some [.vStr "a", .vStr "b", .vStr "c,d"])) ∧
    (∀ elem s vals, readAsCSV s = .ok vals →
      (∀ x ∈ vals, ∃ v, parseSimpleValue (.simple elem) x = .ok v) →
      ∃ ws, parseElems elem vals = .ok ws ∧
        parseSlice elem s = .ok (.vSlice elem (some ws))) ∧
    (∀ elem s vals x, readAsCSV s = .ok vals → x ∈ vals →
      (∀ v, parseSimpleValue (.simple elem) x ≠ .ok v) →
      ∃ e, parseSlice elem s = .error e) := by
  refine ⟨rfl, rfl, fun elem s vals hcsv hall => ?_, fun elem s vals x hcsv hx hfail => ?_⟩
  · obtain ⟨ws, hws⟩ := parseElems_all_ok elem vals hall
    exact ⟨ws, hws, by simp [parseSlice, hcsv, hws]⟩
  · obtain ⟨e, he⟩ := parseElems_elem_fails elem vals x hx hfail
    exact ⟨e, by simp [parseSlice, hcsv, he]⟩

/-- Witness for C6: the general conjuncts applied to the concrete `[]int`
inputs `"1,2"` (all elements coerce) and `"1,x"` (the element `"x"` fails,
aborting the assignment). -/
theorem slice_csv_coercion_witness :
    readAsCSV "1,2" = .ok ["1", "2"] ∧ readAsCSV "1,x" = .ok ["1", "x"] ∧
    (∃ ws, parseElems (.int .word) ["1", "2"] = .ok ws ∧
      parseSlice (.int .word) "1,2" = .ok (.vSlice (.int .word) (some ws))) ∧
    (∃ e, parseSlice (.int .word) "1,x" = .error e) := by
  refine ⟨rfl, rfl, ?_, ?_⟩
  · refine (slice_csv_coercion []).2.2.1 (.int .word) "1,2" ["1", "2"] rfl ?_
    intro x hx
    fin_cases hx
    · exact ⟨.vInt .word 1, rfl⟩
    · exact ⟨.vInt .word 2, rfl⟩
  · refine (slice_csv_coercion []).2.2.2 (.int .word) "1,x" ["1", "x"] "x" rfl
      (by simp) ?_
    intro v h
    have hx : parseSimpleValue (.simple (.int .word)) "x" =
        .error (.parseError "x" (.simple (.int .word))) := rfl
    rw [hx] at h
    cases h

/-! ## Claim theorems: the structure-inspection index bug (C9) and the
defaults pass missing nested options (C4) -/

/-- C9 (shown false on the code; the code slip is the bug).  The
duplicate-shorthand scan of `inspectConfigStructure` reads `opts[i].short` —
the top-level list — at the flattened index `i` at which the duplicate was
found in `allOpts`.  On this struct (one top-level composite holding three
leaves, the last two sharing shorthand `"x"`), the first duplicate sits at
flattened index 1 while there is a single top-level option, so the access is
out of bounds and Go raises an index-out-of-range panic instead of returning
the intended error value. -/
theorem dup_short_error_branch_panics :
    inspectConfigStructure
      [ .parent "a" "" none
          [ .leaf "p" "" none (.simple .str),
            .leaf "q" "x" none (.simple .str),
            .leaf "r" "x" none (.simple .str) ] ] = .panicked := by
  rfl

/-- C4 (shown false on the code; the code contradicts the repository's own
test "only defaults", which asserts a nested option's default is applied).
`setDefaults` iterates `s.opts` — the top-level options only — so a
recursively nested option with a declared default and a zero-valued field is
left at the zero value, even though its default literal coerces fine.  The
struct mirrors the test fixture: a top-level string with default
`"defstring"` and a nested string with default `"defstring2"`, all fields
zero-valued. -/
theorem nested_default_not_applied :
    ((setDefaultsPass
        (topOpts
          [ .leaf "stringvar" "s" (some "defstring") (.simple .str),
            .parent "nestedid" "" none
              [ .leaf "stringvar" "n" (some "defstring2") (.simple .str) ] ])
        (fun _ => .vStr "")).2.isNone = true) ∧
    ((setDefaultsPass
        (topOpts
          [ .leaf "stringvar" "s" (some "defstring") (.simple .str),
            .parent "nestedid" "" none
              [ .leaf "stringvar" "n" (some "defstring2") (.simple .str) ] ])
        (fun _ => .vStr "")).1 ["stringvar"] = .vStr "defstring") ∧
    ((setDefaultsPass
        (topOpts
          [ .leaf "stringvar" "s" (some "defstring") (.simple .str),
            .parent "nestedid" "" none
              [ .leaf "stringvar" "n" (some "defstring2") (.simple .str) ] ])
        (fun _ => .vStr "")).1 ["nestedid", "stringvar"] = .vStr "") ∧
    parseDefaultLiteral (.simple .str) "defstring2" = .ok (.vStr "defstring2") := by
  exact ⟨rfl, rfl, rfl, rfl⟩

/-! ## Claim C10: the empty string and slice fields -/

/-- C10. For every slice-typed field other than a byte slice, coercing the
empty string produces the empty slice, not a one-element slice holding the
empty string: `readAsCSV` returns no fields on empty input, `parseSlice`
builds the empty slice from it, and the string-coercion entry point stores
it; consequently an environment variable that is present but empty replaces
whatever the field held (a coerced default included) with the empty slice. -/
theorem empty_string_empty_slice (path : List String) (envPrefix : String)
    (env : String → Option String) (os : List FlatOpt) (st : State)
    (o : FlatOpt) (elem : SimpleType)
    (hnodup : (os.map FlatOpt.path).Nodup) (hmem : o ∈ os)
    (hty : o.ty = some (.slice elem))
    (hkey : env (makeEnvKey envPrefix o.path) = some "")
    (hok : (parseEnvPass envPrefix env os st).2 = none) :
    readAsCSV "" = .ok [] ∧
    parseSlice elem "" = .ok (.vSlice elem (some [])) ∧
    setValueByString path (.slice elem) "" = .ok (.vSlice elem (some [])) ∧
    (parseEnvPass envPrefix env os st).1 o.path = .vSlice elem (some []) := by
  have h3 : ∀ p, setValueByString p (.slice elem) "" = .ok (.vSlice elem (some [])) :=
    fun p => rfl
  obtain ⟨gv, hgv, hst⟩ :=
    parseEnvPass_sets envPrefix env os st o (.slice elem) "" hnodup hmem hty hkey hok
  rw [h3 o.path] at hgv
  injection hgv with hgv
  exact ⟨rfl, rfl, h3 path, by rw [hst, ← hgv]⟩

/-- Witness for C10: a string-slice option whose environment variable is set
to the empty string ends as the empty slice, overwriting the previous
one-element value. -/
theorem empty_string_empty_slice_witness :
    readAsCSV "" = .ok [] ∧
    (parseEnvPass "" (fun k => if k = "TAGS" then some "" else none)
        [⟨["tags"], "", none, some (.slice .str)⟩]
        (fun _ => .vSlice .str (some [.vStr "defval"]))).1 ["tags"] =
      .vSlice .str (some []) := by
  have h := empty_string_empty_slice ["tags"] ""
    (fun k => if k = "TAGS" then some "" else none)
    [⟨["tags"], "", none, some (.slice .str)⟩]
    (fun _ => .vSlice .str (some [.vStr "defval"]))
    ⟨["tags"], "", none, some (.slice .str)⟩ .str
    (by decide) (List.mem_singleton.mpr rfl) rfl rfl rfl
  exact ⟨h.1, h.2.2.2⟩

/-! ## Claim C8: the file pass matches map entries by identifier -/

/-- The file pass reads the level map only through lookups at the level's
field identifiers: maps agreeing on those lookups drive the pass
identically. -/
theorem parseMapOptsGo_congr (fm fm2 : List (String × DynVal))
    (pre : List String) (fields : List FieldSpec)
    (h : ∀ f ∈ fields, lookupDyn fm f.id = lookupDyn fm2 f.id) :
    ∀ st, parseMapOptsGo st fm pre fields = parseMapOptsGo st fm2 pre fields := by
  induction fields with
  | nil => intro st; rw [parseMapOptsGo, parseMapOptsGo]
  | cons f fs ih =>
    intro st
    have hh := h f (List.mem_cons_self f fs)
    have ih2 := ih fun g hg => h g (List.mem_cons_of_mem f hg)
    cases hlk : lookupDyn fm2 f.id with
    | none =>
      rw [parseMapOptsGo_cons_skip st fm pre f fs (hh.trans hlk),
        parseMapOptsGo_cons_skip st fm2 pre f fs hlk]
      exact ih2 st
    | some val =>
      cases f with
      | leaf id sh dt t =>
        rw [parseMapOptsGo_cons_leaf st fm pre id sh dt t fs val (hh.trans hlk),
          parseMapOptsGo_cons_leaf st fm2 pre id sh dt t fs val hlk]
        cases hsv : setValue (pre ++ [id]) t val with
        | error e => rfl
        | ok v =>
          dsimp only
          exact ih2 _
      | parent id sh dt subs =>
        cases val with
        | dMap mi =>
          rw [parseMapOptsGo_cons_parent_map st fm pre id sh dt subs fs mi (hh.trans hlk),
            parseMapOptsGo_cons_parent_map st fm2 pre id sh dt subs fs mi hlk]
          rcases hi : parseMapOptsGo st (formatMapKeys mi) (pre ++ [id]) subs with ⟨sti, e⟩
          cases e with
          | none => exact ih2 sti
          | some e => rfl
        | dStr s =>
          rw [parseMapOptsGo_cons_parent_bad st fm pre id sh dt subs fs _ (hh.trans hlk)
              (fun mi hx => by cases hx),
            parseMapOptsGo_cons_parent_bad st fm2 pre id sh dt subs fs _ hlk
              (fun mi hx => by cases hx)]
        | dBool b =>
          rw [parseMapOptsGo_cons_parent_bad st fm pre id sh dt subs fs _ (hh.trans hlk)
              (fun mi hx => by cases hx),
            parseMapOptsGo_cons_parent_bad st fm2 pre id sh dt subs fs _ hlk
              (fun mi hx => by cases hx)]
        | dInt n =>
          rw [parseMapOptsGo_cons_parent_bad st fm pre id sh dt subs fs _ (hh.trans hlk)
              (fun mi hx => by cases hx),
            parseMapOptsGo_cons_parent_bad st fm2 pre id sh dt subs fs _ hlk
              (fun mi hx => by cases hx)]
        | dList xs =>
          rw [parseMapOptsGo_cons_parent_bad st fm pre id sh dt subs fs _ (hh.trans hlk)
              (fun mi hx => by cases hx),
            parseMapOptsGo_cons_parent_bad st fm2 pre id sh dt subs fs _ hlk
              (fun mi hx => by cases hx)]

/-- A composite option somewhere in the level whose matching map value is not
a nested map forces the level's pass to return an error (the pass may stop
with an earlier field's error, but never succeeds). -/
theorem parseMapOptsGo_parent_nonmap (fm : List (String × DynVal))
    (pre : List String) (id sh : String) (dt : Option String)
    (subs : List FieldSpec) (val : DynVal)
    (hlk : lookupDyn fm id = some val) (hnm : ∀ mi, val ≠ .dMap mi) :
    ∀ fields, FieldSpec.parent id sh dt subs ∈ fields →
      ∀ st, ∃ e, (parseMapOptsGo st fm pre fields).2 = some e := by
  intro fields
  induction fields with
  | nil => intro hmem; cases hmem
  | cons f fs ih =>
    intro hmem st
    rcases List.mem_cons.mp hmem with heq | hmem2
    · rw [← heq]
      rw [parseMapOptsGo_cons_parent_bad st fm pre id sh dt subs fs val hlk hnm]
      exact ⟨_, rfl⟩
    · cases hlk2 : lookupDyn fm f.id with
      | none =>
        rw [parseMapOptsGo_cons_skip st fm pre f fs hlk2]
        exact ih hmem2 st
      | some v2 =>
        cases f with
        | leaf fid fsh fdt ft =>
          rw [parseMapOptsGo_cons_leaf st fm pre fid fsh fdt ft fs v2 hlk2]
          cases hsv : setValue (pre ++ [fid]) ft v2 with
          | error e => exact ⟨.wrapped (pre ++ [fid]) e, rfl⟩
          | ok gv =>
            dsimp only
            exact ih hmem2 _
        | parent fid fsh fdt fsubs =>
          cases v2 with
          | dMap mi =>
            rw [parseMapOptsGo_cons_parent_map st fm pre fid fsh fdt fsubs fs mi hlk2]
            rcases hi : parseMapOptsGo st (formatMapKeys mi) (pre ++ [fid]) fsubs with ⟨sti, e⟩
            cases e with
            | none => exact ih hmem2 sti
            | some e => exact ⟨e, rfl⟩
          | dStr s =>
            rw [parseMapOptsGo_cons_parent_bad st fm pre fid fsh fdt fsubs fs _ hlk2
              (fun mi hx => by cases hx)]
            exact ⟨_, rfl⟩
          | dBool b =>
            rw [parseMapOptsGo_cons_parent_bad st fm pre fid fsh fdt fsubs fs _ hlk2
              (fun mi hx => by cases hx)]
            exact ⟨_, rfl⟩
          | dInt n =>
            rw [parseMapOptsGo_cons_parent_bad st fm pre fid fsh fdt fsubs fs _ hlk2
              (fun mi hx => by cases hx)]
            exact ⟨_, rfl⟩
          | dList xs =>
            rw [parseMapOptsGo_cons_parent_bad st fm pre fid fsh fdt fsubs fs _ hlk2
              (fun mi hx => by cases hx)]
            exact ⟨_, rfl⟩

/-- C8. Applying a decoded config-file map matches options to map entries by
identifier at each level: the pass reads the level map only through lookups
at the level's field identifiers, so a map entry whose (normalised) key
matches no option identifier at its level is silently ignored — adding it
changes neither the resulting state nor the reported error; a composite
option whose matching value is not itself a nested map makes the pass return
an error, and when that composite heads the level the error is precisely the
composite-value error with the state unchanged. -/
theorem file_pass_key_matching (st : State) (m : List (String × DynVal))
    (pre : List String) (fields : List FieldSpec) (k : String) (v : DynVal)
    (id sh : String) (dt : Option String) (subs : List FieldSpec) (val : DynVal) :
    ((∀ f ∈ fields, f.id ≠ toKebab k) →
      parseMapOptsGo st (formatMapKeys ((k, v) :: m)) pre fields =
        parseMapOptsGo st (formatMapKeys m) pre fields) ∧
    (FieldSpec.parent id sh dt subs ∈ fields →
      lookupDyn (formatMapKeys m) id = some val → (∀ mi, val ≠ .dMap mi) →
      ∃ e, (parseMapOptsGo st (formatMapKeys m) pre fields).2 = some e) ∧
    (lookupDyn (formatMapKeys m) id = some val → (∀ mi, val ≠ .dMap mi) →
      parseMapOptsGo st (formatMapKeys m) pre (.parent id sh dt subs :: fields) =
        (st, some (.compositeValue (pre ++ [id])))) := by
  refine ⟨fun hnk => ?_,
    fun hmem hlk hnm => parseMapOptsGo_parent_nonmap (formatMapKeys m) pre id sh dt subs val
      hlk hnm fields hmem st,
    fun hlk hnm => parseMapOptsGo_cons_parent_bad st (formatMapKeys m) pre id sh dt subs
      fields val hlk hnm⟩
  apply parseMapOptsGo_congr
  intro f hf
  have hstep : formatMapKeys ((k, v) :: m) = (toKebab k, v) :: formatMapKeys m := rfl
  rw [hstep, lookupDyn]
  exact if_neg fun he => hnk f hf he.symm

/-- Witness for C8: the unmatched key "zzz" added to a level is ignored; the
composite "b" matched to a plain string makes the pass error — at the head of
a level, with exactly the composite-value error. -/
theorem file_pass_key_matching_witness :
    (parseMapOptsGo (fun _ => .vStr "")
        (formatMapKeys [("zzz", .dStr "w"), ("b", .dStr "s")]) []
        [.leaf "a" "" none (.simple .str),
          .parent "b" "" none [.leaf "c" "" none (.simple .str)]] =
      parseMapOptsGo (fun _ => .vStr "") (formatMapKeys [("b", .dStr "s")]) []
        [.leaf "a" "" none (.simple .str),
          .parent "b" "" none [.leaf "c" "" none (.simple .str)]]) ∧
    (∃ e, (parseMapOptsGo (fun _ => .vStr "") (formatMapKeys [("b", .dStr "s")]) []
        [.leaf "a" "" none (.simple .str),
          .parent "b" "" none [.leaf "c" "" none (.simple .str)]]).2 = some e) ∧
    (parseMapOptsGo (fun _ => .vStr "") (formatMapKeys [("b", .dStr "s")]) []
        (.parent "b" "" none [.leaf "c" "" none (.simple .str)] ::
          [.leaf "a" "" none (.simple .str),
            .parent "b" "" none [.leaf "c" "" none (.simple .str)]]) =
      ((fun _ => .vStr ""), some (.compositeValue ["b"]))) := by
  have h := file_pass_key_matching (fun _ => .vStr "") [("b", .dStr "s")] []
    [.leaf "a" "" none (.simple .str),
      .parent "b" "" none [.leaf "c" "" none (.simple .str)]]
    "zzz" (.dStr "w") "b" "" none [.leaf "c" "" none (.simple .str)] (.dStr "s")
  exact ⟨h.1 (by decide),
    h.2.1 (List.mem_cons_of_mem _ (List.mem_cons_self _ _)) rfl (fun mi hx => by cases hx),
    h.2.2 rfl (fun mi hx => by cases hx)⟩

/-! ## Claim C3: duplicate shorthands abort the load before any source -/

/-- A structure whose flattened options fire the duplicate-shorthand scan is
never accepted by `inspectConfigStructure`. -/
theorem inspectConfigStructure_ne_ok (fields : List FieldSpec)
    (hfind : firstDupShortIdx (flattenList [] fields) ≠ none) :
    inspectConfigStructure fields ≠ .ok := by
  intro hok
  rw [inspectConfigStructure] at hok
  split at hok
  · cases hok
  · split at hok
    · next heq => exact hfind heq
    · split at hok <;> cases hok

/-- C3. Two options anywhere in the option tree — any nesting level, any
branches — declaring the same non-empty shorthand make `Load` fail during
structure inspection: the duplicate-shorthand scan fires, the inspection
result is not acceptance, and the model returns the inspection failure with
the caller's struct untouched — no source has been consulted and no field
written. -/
theorem dup_shorthand_fails_inspection (fields : List FieldSpec) (init : State)
    (file : Option (List (String × DynVal))) (envPrefix : String)
    (env : String → Option String) (flags : List (String × String))
    (i j : Nat) (oi oj : FlatOpt)
    (hi : (flattenList [] fields).get? i = some oi)
    (hj : (flattenList [] fields).get? j = some oj)
    (hne : i ≠ j) (hs : oi.short = oj.short) (hns : oi.short ≠ "") :
    inspectConfigStructure fields ≠ .ok ∧
    LoadModel fields init file envPrefix env flags = .inspectFailed init ∧
    (LoadModel fields init file envPrefix env flags).state = init := by
  obtain ⟨hilen, -⟩ := List.get?_eq_some.mp hi
  obtain ⟨hjlen, -⟩ := List.get?_eq_some.mp hj
  have hdup : hasDupShortAt (flattenList [] fields) i = true := by
    rw [hasDupShortAt, hi]
    rw [Bool.and_eq_true]
    refine ⟨decide_eq_true hns, ?_⟩
    rw [List.any_eq_true]
    refine ⟨j, List.mem_range.mpr hjlen, ?_⟩
    rw [Bool.and_eq_true]
    refine ⟨decide_eq_true (Ne.symm hne), ?_⟩
    rw [hj]
    exact decide_eq_true (by rw [hs]; rfl)
  have hfind : firstDupShortIdx (flattenList [] fields) ≠ none := by
    rw [firstDupShortIdx]
    intro h
    exact absurd hdup (by simpa using List.find?_eq_none.mp h i (List.mem_range.mpr hilen))
  have hnotok := inspectConfigStructure_ne_ok fields hfind
  have hload : LoadModel fields init file envPrefix env flags = .inspectFailed init := by
    rw [LoadModel]
    generalize hins : inspectConfigStructure fields = r
    cases r with
    | ok => exact absurd hins hnotok
    | errored => rfl
    | panicked => rfl
  exact ⟨hnotok, hload, by rw [hload]; rfl⟩

/-- Witness for C3: two leaves in different branches (one top-level, one
nested) both declare shorthand "x"; the load aborts at inspection with the
initial state intact. -/
theorem dup_shorthand_fails_inspection_witness :
    inspectConfigStructure
      [.leaf "p" "x" none (.simple .str),
        .parent "n" "" none [.leaf "q" "x" none (.simple .str)]] ≠ .ok ∧
    LoadModel
      [.leaf "p" "x" none (.simple .str),
        .parent "n" "" none [.leaf "q" "x" none (.simple .str)]]
      (fun _ => .vStr "init") none "" (fun _ => none) [] =
      .inspectFailed (fun _ => .vStr "init") := by
  have h := dup_shorthand_fails_inspection
    [.leaf "p" "x" none (.simple .str),
      .parent "n" "" none [.leaf "q" "x" none (.simple .str)]]
    (fun _ => .vStr "init") none "" (fun _ => none) []
    0 1 ⟨["p"], "x", none, some (.simple .str)⟩ ⟨["n", "q"], "x", none, some (.simple .str)⟩
    rfl rfl (by decide) rfl (by decide)
  exact ⟨h.1, h.2.1⟩

/-! ## Claims C1 and C2: source order and override across a full load -/

/-- A successful load went through all four stages in order: inspection
accepted the structure and each pass handed its state to the next without an
error. -/
theorem LoadModel_ok_decomp (fields : List FieldSpec) (init : State)
    (file : Option (List (String × DynVal))) (envPrefix : String)
    (env : String → Option String) (flags : List (String × String))
    (st4 : State)
    (h : LoadModel fields init file envPrefix env flags = .ok st4) :
    createOk fields = true ∧
    ∃ st1 st2 st3,
      setDefaultsPass (topOpts fields) init = (st1, none) ∧
      filePassStep file fields st1 = (st2, none) ∧
      parseEnvPass envPrefix env (flattenList [] fields) st2 = (st3, none) ∧
      parseFlagsPass (flattenList [] fields) flags st3 = (st4, none) := by
  rw [LoadModel] at h
  generalize hins : inspectConfigStructure fields = ins at h
  cases ins with
  | errored => exact LoadResult.noConfusion h
  | panicked => exact LoadResult.noConfusion h
  | ok =>
    have hwf : createOk fields = true := by
      by_contra hc
      rw [Bool.not_eq_true] at hc
      rw [inspectConfigStructure, hc] at hins
      cases hins
    refine ⟨hwf, ?_⟩
    dsimp only at h
    generalize hdef : setDefaultsPass (topOpts fields) init = r1 at h
    obtain ⟨st1, e1⟩ := r1
    cases e1 with
    | some e => exact LoadResult.noConfusion h
    | none =>
    dsimp only at h
    generalize hfil : filePassStep file fields st1 = r2 at h
    obtain ⟨st2, e2⟩ := r2
    cases e2 with
    | some e => exact LoadResult.noConfusion h
    | none =>
    dsimp only at h
    generalize henv : parseEnvPass envPrefix env (flattenList [] fields) st2 = r3 at h
    obtain ⟨st3, e3⟩ := r3
    cases e3 with
    | some e => exact LoadResult.noConfusion h
    | none =>
    dsimp only at h
    generalize hflg : parseFlagsPass (flattenList [] fields) flags st3 = r4 at h
    obtain ⟨stf, e4⟩ := r4
    cases e4 with
    | some e => exact LoadResult.noConfusion h
    | none =>
      dsimp only at h
      have h2 : LoadResult.ok stf = LoadResult.ok st4 := h
      injection h2 with h2
      subst h2
      exact ⟨st1, st2, st3, rfl, hfil, henv, hflg⟩

/-- What a successfully loaded option holds, source by source: the flag text
if the flags supply one; else the environment text; else the file value;
else whatever the defaults pass left. -/
theorem LoadModel_char (fields : List FieldSpec) (init : State)
    (file : Option (List (String × DynVal))) (envPrefix : String)
    (env : String → Option String) (flags : List (String × String))
    (final : State) (rel : List String) (o : FlatOpt) (t : GoType)
    (hok : LoadModel fields init file envPrefix env flags = .ok final)
    (hres : resolveOpt [] fields rel = some o) (hty : o.ty = some t)
    (hpair : (flattenList [] fields).Pairwise keysDisj)
    (hfm : ∀ e ∈ flags, e.1 ≠ "") :
    (∀ v, flagSupply flags o = some v →
      ∃ gv, setValueByString o.path t v = .ok gv ∧ final o.path = gv) ∧
    (∀ v, flagSupply flags o = none →
      env (makeEnvKey envPrefix o.path) = some v →
      ∃ gv, setValueByString o.path t v = .ok gv ∧ final o.path = gv) ∧
    (∀ dv, flagSupply flags o = none →
      env (makeEnvKey envPrefix o.path) = none →
      fileSupply file fields rel = some dv →
      ∃ gv, setValue o.path t dv = .ok gv ∧ final o.path = gv) ∧
    (flagSupply flags o = none →
      env (makeEnvKey envPrefix o.path) = none →
      fileSupply file fields rel = none →
      final o.path = (setDefaultsPass (topOpts fields) init).1 o.path) := by
  obtain ⟨hwf, st1, st2, st3, hdef, hfil, henvp, hflg⟩ :=
    LoadModel_ok_decomp fields init file envPrefix env flags final hok
  have hmem : o ∈ flattenList [] fields := resolveOpt_mem [] fields rel o hres
  have hfieldsok : fieldsOk fields = true := by
    rw [createOk, Bool.and_eq_true] at hwf
    exact hwf.1
  have hdupf : hasDupIds (fields.map FieldSpec.id) = false := by
    rw [createOk, Bool.and_eq_true] at hwf
    have h2 := hwf.2
    rwa [Bool.not_eq_true'] at h2
  have hnodup : ((flattenList [] fields).map FlatOpt.path).Nodup :=
    flattenList_paths_nodup [] fields hfieldsok hdupf
  have hgo : (parseFlagsGo (flattenList [] fields) flags st3).2.2 = none :=
    parseFlagsPass_ok _ _ _ (by rw [hflg])
  have hfst : final = (parseFlagsGo (flattenList [] fields) flags st3).1 := by
    rw [← parseFlagsPass_fst, hflg]
  have henvok : (parseEnvPass envPrefix env (flattenList [] fields) st2).2 = none := by
    rw [henvp]
  refine ⟨?_, ?_, ?_, ?_⟩
  · intro v hsup
    obtain ⟨gv, hgv, hst⟩ := parseFlagsGo_supplied (flattenList [] fields) flags st3 o t v
      hnodup hpair hfm hmem hty hsup hgo
    exact ⟨gv, hgv, by rw [hfst]; exact hst⟩
  · intro v hnf hkey
    have h1 : final o.path = st3 o.path := by
      rw [hfst]
      exact parseFlagsGo_unsupplied (flattenList [] fields) flags st3 o t
        hnodup hpair hfm hmem hty hnf hgo
    obtain ⟨gv, hgv, hst⟩ := parseEnvPass_sets envPrefix env (flattenList [] fields) st2 o t v
      hnodup hmem hty hkey henvok
    rw [henvp] at hst
    exact ⟨gv, hgv, by rw [h1]; exact hst⟩
  · intro dv hnf hnk hsup
    have h1 : final o.path = st3 o.path := by
      rw [hfst]
      exact parseFlagsGo_unsupplied (flattenList [] fields) flags st3 o t
        hnodup hpair hfm hmem hty hnf hgo
    have h2 : st3 o.path = st2 o.path := by
      have h3 := parseEnvPass_unset envPrefix env (flattenList [] fields) st2 o
        hnodup hmem hnk
      rw [henvp] at h3
      exact h3
    cases file with
    | none =>
      rw [fileSupply] at hsup
      cases hsup
    | some m =>
      rw [fileSupply] at hsup
      have hfil2 : parseMapOptsGo st1 (formatMapKeys m) [] fields = (st2, none) := hfil
      obtain ⟨gv, hgv, hst⟩ := parseMapOptsGo_sets st1 m [] fields rel o t dv
        hwf hres hty hsup (by rw [hfil2])
      rw [hfil2] at hst
      exact ⟨gv, hgv, by rw [h1, h2]; exact hst⟩
  · intro hnf hnk hns
    have h1 : final o.path = st3 o.path := by
      rw [hfst]
      exact parseFlagsGo_unsupplied (flattenList [] fields) flags st3 o t
        hnodup hpair hfm hmem hty hnf hgo
    have h2 : st3 o.path = st2 o.path := by
      have h3 := parseEnvPass_unset envPrefix env (flattenList [] fields) st2 o
        hnodup hmem hnk
      rw [henvp] at h3
      exact h3
    have h3 : st2 o.path = st1 o.path := by
      cases file with
      | none =>
        have hfil2 : (st1, (none : Option CoerceErr)) = (st2, none) := hfil
        injection hfil2 with he _
        rw [← he]
      | some m =>
        rw [fileSupply] at hns
        have hfil2 : parseMapOptsGo st1 (formatMapKeys m) [] fields = (st2, none) := hfil
        have h4 := parseMapOptsGo_unset st1 m [] fields rel o t hwf hres hty hns
          (by rw [hfil2])
        rw [hfil2] at h4
        exact h4
    rw [h1, h2, h3, hdef]

/-- An option without a declared default is left at the initial value by the
defaults pass, whether it is a top-level option (the pass skips it) or a
nested one (the pass never reaches it). -/
theorem defaults_state_no_default (fields : List FieldSpec) (init : State)
    (rel : List String) (o : FlatOpt)
    (hdupf : hasDupIds (fields.map FieldSpec.id) = false)
    (hres : resolveOpt [] fields rel = some o)
    (hd : o.defaultTag = none) :
    (setDefaultsPass (topOpts fields) init).1 o.path = init o.path := by
  cases rel with
  | nil => cases hres
  | cons id rest =>
    cases rest with
    | nil =>
      exact setDefaultsPass_skips_no_default (topOpts fields) init o
        (topOpts_paths_nodup fields hdupf) (resolveOpt_single_top fields id o hres) hd
    | cons x rest2 =>
      apply setDefaultsPass_untouched
      intro hmemp
      obtain ⟨o2, ho2, he⟩ := List.mem_map.mp hmemp
      obtain ⟨id2, hid2⟩ := topOpts_path_single fields o2 ho2
      have hp := resolveOpt_path [] fields (id :: x :: rest2) o hres
      rw [hid2] at he
      rw [hp] at he
      have hlen := congrArg List.length he
      simp at hlen

/-- C1. `Load` applies the sources in the fixed order defaults, config file,
environment, flags, and on any option the latest-applied source that
supplies a value wins while a source that supplies nothing changes nothing:
on a successful load, a flag-supplied option holds the flag text's coercion;
with no flag, an environment-supplied option holds the environment text's
coercion; with no flag and no environment value, a file-supplied option
holds the file value's coercion; with no later source, a top-level option
with a declared default and a zero initial value holds the coerced default;
and an option no source supplies and without a default keeps its initial
value — it is never reset to a default or zero value. -/
theorem load_source_order_override (fields : List FieldSpec) (init : State)
    (file : Option (List (String × DynVal))) (envPrefix : String)
    (env : String → Option String) (flags : List (String × String))
    (final : State) (rel : List String) (o : FlatOpt) (t : GoType)
    (hok : LoadModel fields init file envPrefix env flags = .ok final)
    (hres : resolveOpt [] fields rel = some o) (hty : o.ty = some t)
    (hpair : (flattenList [] fields).Pairwise keysDisj)
    (hfm : ∀ e ∈ flags, e.1 ≠ "") :
    (∀ v, flagSupply flags o = some v →
      ∃ gv, setValueByString o.path t v = .ok gv ∧ final o.path = gv) ∧
    (∀ v, flagSupply flags o = none →
      env (makeEnvKey envPrefix o.path) = some v →
      ∃ gv, setValueByString o.path t v = .ok gv ∧ final o.path = gv) ∧
    (∀ dv, flagSupply flags o = none →
      env (makeEnvKey envPrefix o.path) = none →
      fileSupply file fields rel = some dv →
      ∃ gv, setValue o.path t dv = .ok gv ∧ final o.path = gv) ∧
    (∀ d, flagSupply flags o = none →
      env (makeEnvKey envPrefix o.path) = none →
      fileSupply file fields rel = none →
      o ∈ topOpts fields → o.defaultTag = some d → isZero (init o.path) = true →
      ∃ gv, parseDefaultLiteral t d = .ok gv ∧ final o.path = gv) ∧
    (flagSupply flags o = none →
      env (makeEnvKey envPrefix o.path) = none →
      fileSupply file fields rel = none →
      o.defaultTag = none →
      final o.path = init o.path) := by
  obtain ⟨hA, hB, hC, hD⟩ := LoadModel_char fields init file envPrefix env flags final rel o t
    hok hres hty hpair hfm
  obtain ⟨hwf, st1, st2, st3, hdef, hfil, henvp, hflg⟩ :=
    LoadModel_ok_decomp fields init file envPrefix env flags final hok
  have hdupf : hasDupIds (fields.map FieldSpec.id) = false := by
    rw [createOk, Bool.and_eq_true] at hwf
    have h2 := hwf.2
    rwa [Bool.not_eq_true'] at h2
  refine ⟨hA, hB, hC, ?_, ?_⟩
  · intro d hnf hnk hns hmemtop hd hz
    have hfin := hD hnf hnk hns
    obtain ⟨gv, hgv, hst⟩ := setDefaultsPass_sets (topOpts fields) init o d t
      (topOpts_paths_nodup fields hdupf) hmemtop hd hty hz (by rw [hdef])
    exact ⟨gv, hgv, by rw [hfin]; exact hst⟩
  · intro hnf hnk hns hd
    rw [hD hnf hnk hns]
    exact defaults_state_no_default fields init rel o hdupf hres hd

/-- Witness for C1: option "a" (default 10) is overridden by the flag text
25; "b" (default 7) by the environment text 13; "c" holds its coerced
default 7; "d", supplied by nothing and defaulting nothing, keeps its
initial zero. -/
theorem load_source_order_override_witness :
    (∃ gv, setValueByString ["a"] (.simple (.int .word)) "25" = .ok gv ∧
      (LoadModel
        [.leaf "a" "" (some "10") (.simple (.int .word)),
        .leaf "b" "" (some "7") (.simple (.int .word)),
        .leaf "c" "" (some "7") (.simple (.int .word)),
        .leaf "d" "" none (.simple (.int .word))]
        (fun _ => .vInt .word 0) none
        "" (fun k => if k = "B" then some "13" else none)
        [("a", "25")]).state ["a"] = gv) ∧
    (∃ gv, setValueByString ["b"] (.simple (.int .word)) "13" = .ok gv ∧
      (LoadModel
        [.leaf "a" "" (some "10") (.simple (.int .word)),
        .leaf "b" "" (some "7") (.simple (.int .word)),
        .leaf "c" "" (some "7") (.simple (.int .word)),
        .leaf "d" "" none (.simple (.int .word))]
        (fun _ => .vInt .word 0) none
        "" (fun k => if k = "B" then some "13" else none)
        [("a", "25")]).state ["b"] = gv) ∧
    (∃ gv, parseDefaultLiteral (.simple (.int .word)) "7" = .ok gv ∧
      (LoadModel
        [.leaf "a" "" (some "10") (.simple (.int .word)),
        .leaf "b" "" (some "7") (.simple (.int .word)),
        .leaf "c" "" (some "7") (.simple (.int .word)),
        .leaf "d" "" none (.simple (.int .word))]
        (fun _ => .vInt .word 0) none
        "" (fun k => if k = "B" then some "13" else none)
        [("a", "25")]).state ["c"] = gv) ∧
    ((LoadModel
        [.leaf "a" "" (some "10") (.simple (.int .word)),
        .leaf "b" "" (some "7") (.simple (.int .word)),
        .leaf "c" "" (some "7") (.simple (.int .word)),
        .leaf "d" "" none (.simple (.int .word))]
        (fun _ => .vInt .word 0) none
        "" (fun k => if k = "B" then some "13" else none)
        [("a", "25")]).state ["d"] = .vInt .word 0) := by
  refine ⟨?_, ?_, ?_, ?_⟩
  · exact (load_source_order_override
      [.leaf "a" "" (some "10") (.simple (.int .word)),
        .leaf "b" "" (some "7") (.simple (.int .word)),
        .leaf "c" "" (some "7") (.simple (.int .word)),
        .leaf "d" "" none (.simple (.int .word))]
      (fun _ => .vInt .word 0) none
      "" (fun k => if k = "B" then some "13" else none)
      [("a", "25")]
      ((LoadModel
        [.leaf "a" "" (some "10") (.simple (.int .word)),
        .leaf "b" "" (some "7") (.simple (.int .word)),
        .leaf "c" "" (some "7") (.simple (.int .word)),
        .leaf "d" "" none (.simple (.int .word))]
        (fun _ => .vInt .word 0) none
        "" (fun k => if k = "B" then some "13" else none)
        [("a", "25")]).state) ["a"]
      ⟨["a"], "", some "10", some (.simple (.int .word))⟩ (.simple (.int .word))
      rfl rfl rfl (by decide) (by decide)).1 "25" rfl
  · exact (load_source_order_override
      [.leaf "a" "" (some "10") (.simple (.int .word)),
        .leaf "b" "" (some "7") (.simple (.int .word)),
        .leaf "c" "" (some "7") (.simple (.int .word)),
        .leaf "d" "" none (.simple (.int .word))]
      (fun _ => .vInt .word 0) none
      "" (fun k => if k = "B" then some "13" else none)
      [("a", "25")]
      ((LoadModel
        [.leaf "a" "" (some "10") (.simple (.int .word)),
        .leaf "b" "" (some "7") (.simple (.int .word)),
        .leaf "c" "" (some "7") (.simple (.int .word)),
        .leaf "d" "" none (.simple (.int .word))]
        (fun _ => .vInt .word 0) none
        "" (fun k => if k = "B" then some "13" else none)
        [("a", "25")]).state) ["b"]
      ⟨["b"], "", some "7", some (.simple (.int .word))⟩ (.simple (.int .word))
      rfl rfl rfl (by decide) (by decide)).2.1 "13" rfl rfl
  · exact (load_source_order_override
      [.leaf "a" "" (some "10") (.simple (.int .word)),
        .leaf "b" "" (some "7") (.simple (.int .word)),
        .leaf "c" "" (some "7") (.simple (.int .word)),
        .leaf "d" "" none (.simple (.int .word))]
      (fun _ => .vInt .word 0) none
      "" (fun k => if k = "B" then some "13" else none)
      [("a", "25")]
      ((LoadModel
        [.leaf "a" "" (some "10") (.simple (.int .word)),
        .leaf "b" "" (some "7") (.simple (.int .word)),
        .leaf "c" "" (some "7") (.simple (.int .word)),
        .leaf "d" "" none (.simple (.int .word))]
        (fun _ => .vInt .word 0) none
        "" (fun k => if k = "B" then some "13" else none)
        [("a", "25")]).state) ["c"]
      ⟨["c"], "", some "7", some (.simple (.int .word))⟩ (.simple (.int .word))
      rfl rfl rfl (by decide) (by decide)).2.2.2.1 "7" rfl rfl rfl (by decide) rfl rfl
  · exact (load_source_order_override
      [.leaf "a" "" (some "10") (.simple (.int .word)),
        .leaf "b" "" (some "7") (.simple (.int .word)),
        .leaf "c" "" (some "7") (.simple (.int .word)),
        .leaf "d" "" none (.simple (.int .word))]
      (fun _ => .vInt .word 0) none
      "" (fun k => if k = "B" then some "13" else none)
      [("a", "25")]
      ((LoadModel
        [.leaf "a" "" (some "10") (.simple (.int .word)),
        .leaf "b" "" (some "7") (.simple (.int .word)),
        .leaf "c" "" (some "7") (.simple (.int .word)),
        .leaf "d" "" none (.simple (.int .word))]
        (fun _ => .vInt .word 0) none
        "" (fun k => if k = "B" then some "13" else none)
        [("a", "25")]).state) ["d"]
      ⟨["d"], "", none, some (.simple (.int .word))⟩ (.simple (.int .word))
      rfl rfl rfl (by decide) (by decide)).2.2.2.2 rfl rfl rfl rfl

/-- C2. An option with a declared default whose field the caller
pre-populated with a non-zero value keeps the caller's value through the
defaults pass (the default is skipped), and through the whole load when no
source supplies it; the file, environment and flag sources still overwrite
it when they address it. -/
theorem prepopulated_value_beats_default (fields : List FieldSpec) (init : State)
    (file : Option (List (String × DynVal))) (envPrefix : String)
    (env : String → Option String) (flags : List (String × String))
    (final : State) (rel : List String) (o : FlatOpt) (t : GoType) (d : String)
    (hok : LoadModel fields init file envPrefix env flags = .ok final)
    (hres : resolveOpt [] fields rel = some o) (hty : o.ty = some t)
    (hd : o.defaultTag = some d)
    (hnz : isZero (init o.path) = false)
    (hpair : (flattenList [] fields).Pairwise keysDisj)
    (hfm : ∀ e ∈ flags, e.1 ≠ "") :
    ((setDefaultsPass (topOpts fields) init).1 o.path = init o.path) ∧
    (flagSupply flags o = none →
      env (makeEnvKey envPrefix o.path) = none →
      fileSupply file fields rel = none →
      final o.path = init o.path) ∧
    (∀ v, flagSupply flags o = some v →
      ∃ gv, setValueByString o.path t v = .ok gv ∧ final o.path = gv) ∧
    (∀ v, flagSupply flags o = none →
      env (makeEnvKey envPrefix o.path) = some v →
      ∃ gv, setValueByString o.path t v = .ok gv ∧ final o.path = gv) ∧
    (∀ dv, flagSupply flags o = none →
      env (makeEnvKey envPrefix o.path) = none →
      fileSupply file fields rel = some dv →
      ∃ gv, setValue o.path t dv = .ok gv ∧ final o.path = gv) := by
  obtain ⟨hA, hB, hC, hD⟩ := LoadModel_char fields init file envPrefix env flags final rel o t
    hok hres hty hpair hfm
  have hkeep : (setDefaultsPass (topOpts fields) init).1 o.path = init o.path :=
    setDefaultsPass_preserves_nonzero (topOpts fields) init o.path hnz
  exact ⟨hkeep, fun hnf hnk hns => by rw [hD hnf hnk hns]; exact hkeep, hA, hB, hC⟩

/-- Witness for C2: option "a" declares default 10 but starts at the
non-zero 5; with no sources the loaded value is still 5, and with the flag
text 25 the flag wins. -/
theorem prepopulated_value_beats_default_witness :
    ((setDefaultsPass (topOpts [.leaf "a" "" (some "10") (.simple (.int .word))])
        (fun _ => .vInt .word 5)).1 ["a"] = .vInt .word 5) ∧
    ((LoadModel [.leaf "a" "" (some "10") (.simple (.int .word))]
        (fun _ => .vInt .word 5) none "" (fun _ => none) []).state ["a"] =
      .vInt .word 5) ∧
    (∃ gv, setValueByString ["a"] (.simple (.int .word)) "25" = .ok gv ∧
      (LoadModel [.leaf "a" "" (some "10") (.simple (.int .word))]
        (fun _ => .vInt .word 5) none "" (fun _ => none) [("a", "25")]).state ["a"] = gv) := by
  refine ⟨?_, ?_, ?_⟩
  · exact (prepopulated_value_beats_default
      [.leaf "a" "" (some "10") (.simple (.int .word))] (fun _ => .vInt .word 5)
      none "" (fun _ => none) []
      ((LoadModel [.leaf "a" "" (some "10") (.simple (.int .word))] (fun _ => .vInt .word 5) none "" (fun _ => none) []).state) ["a"]
      ⟨["a"], "", some "10", some (.simple (.int .word))⟩ (.simple (.int .word)) "10"
      rfl rfl rfl rfl rfl (by decide) (by decide)).1
  · exact (prepopulated_value_beats_default
      [.leaf "a" "" (some "10") (.simple (.int .word))] (fun _ => .vInt .word 5)
      none "" (fun _ => none) []
      ((LoadModel [.leaf "a" "" (some "10") (.simple (.int .word))] (fun _ => .vInt .word 5) none "" (fun _ => none) []).state) ["a"]
      ⟨["a"], "", some "10", some (.simple (.int .word))⟩ (.simple (.int .word)) "10"
      rfl rfl rfl rfl rfl (by decide) (by decide)).2.1 rfl rfl rfl
  · exact (prepopulated_value_beats_default
      [.leaf "a" "" (some "10") (.simple (.int .word))] (fun _ => .vInt .word 5)
      none "" (fun _ => none) [("a", "25")]
      ((LoadModel [.leaf "a" "" (some "10") (.simple (.int .word))] (fun _ => .vInt .word 5) none "" (fun _ => none) [("a", "25")]).state) ["a"]
      ⟨["a"], "", some "10", some (.simple (.int .word))⟩ (.simple (.int .word)) "10"
      rfl rfl rfl rfl rfl (by decide) (by decide)).2.2.1 "25" rfl

end Gonfig
